import Mathlib

/-!
Verification of the summarization core in `summarizer.py` (doc-summarizer).

Strings are modelled as `List Char`.  Python string primitives used by the
source (`str.strip`, `str.split("\n\n")`, `str.split()`, `str.lower`,
`str.replace("\r\n", "\n")`, substring `in`) are embedded below; each
definition mirrors the CPython semantics on the characters the program
manipulates (whitespace is modelled by the ASCII whitespace set; the rare
non-ASCII Unicode whitespace and case mappings are outside the model).
Machine floats in the source (`0.9 * len`, retry base delay, temperature)
are modelled by exact rationals; for the string lengths reachable here the
float comparison `len(out) >= 0.9 * len(in)` agrees with the exact
rational one, which is written multiplied out over ℕ in the executable
definition.
-/

namespace DocSum

/-- Python whitespace test restricted to the ASCII whitespace characters
(space, tab, newline, carriage return, vertical tab, form feed). -/
def pyIsSpace (c : Char) : Bool :=
  c = ' ' ∨ c = '\t' ∨ c = '\n' ∨ c = '\r' ∨ c = Char.ofNat 11 ∨ c = Char.ofNat 12

/-- Python `str.strip()`: drop whitespace from both ends. -/
def pyStrip (l : List Char) : List Char :=
  ((l.dropWhile pyIsSpace).reverse.dropWhile pyIsSpace).reverse

/-- Python `str.replace("\r\n", "\n")`: leftmost, non-overlapping. -/
def replaceCRLF : List Char → List Char
  | [] => []
  | [c] => [c]
  | c1 :: c2 :: rest =>
    if c1 = '\r' ∧ c2 = '\n' then '\n' :: replaceCRLF rest
    else c1 :: replaceCRLF (c2 :: rest)

/-- Python `str.split("\n\n")`: split on every leftmost, non-overlapping
occurrence of the two-character separator, keeping empty pieces. -/
def splitNN : List Char → List (List Char)
  | [] => [[]]
  | [c] => [[c]]
  | c1 :: c2 :: rest =>
    if c1 = '\n' ∧ c2 = '\n' then [] :: splitNN rest
    else
      match splitNN (c2 :: rest) with
      | [] => [[c1]]
      | piece :: pieces => (c1 :: piece) :: pieces

/-- Python `sep.join(pieces)`. -/
def joinSep (sep : List Char) : List (List Char) → List Char
  | [] => []
  | [p] => p
  | p :: q :: ps => p ++ sep ++ joinSep sep (q :: ps)

/-- The paragraph separator re-inserted by the chunker. -/
def nnSep : List Char := ['\n', '\n']

/-- No occurrence of the two-newline separator inside the list. -/
def noNN : List Char → Bool
  | [] => true
  | [_] => true
  | c1 :: c2 :: rest =>
    if c1 = '\n' ∧ c2 = '\n' then false else noNN (c2 :: rest)

/-- Python substring test `needle in hay`. -/
def containsSub (needle hay : List Char) : Bool :=
  hay.tails.any (fun t => List.isPrefixOf needle t)

/-- Python `str.lower()` (ASCII case mapping). -/
def pyLower (l : List Char) : List Char := l.map Char.toLower

/-- Fuel-driven worker for Python `str.split()` (split on whitespace runs,
no empty pieces).  The fuel is an upper bound on the number of characters
still to be consumed; `pyWords` instantiates it with the length. -/
def pyWordsF : Nat → List Char → List (List Char)
  | 0, _ => []
  | _, [] => []
  | fuel + 1, c :: rest =>
    if pyIsSpace c then pyWordsF fuel rest
    else
      (c :: rest.takeWhile (fun d => !pyIsSpace d)) ::
        pyWordsF fuel (rest.dropWhile (fun d => !pyIsSpace d))

/-- Python `str.split()`. -/
def pyWords (l : List Char) : List (List Char) := pyWordsF l.length l

/-- Whitespace collapsing used by the echo detector:
`" ".join(s.split())`. -/
def collapseWS (l : List Char) : List Char := joinSep [' '] (pyWords l)

/-! ### Chunker (`Summarizer._chunk_text`) -/

/-- Fuel-driven worker for the hard split of an oversized paragraph:
`for i in range(0, len(p), chunk_chars): chunks.append(p[i:i+chunk_chars])`.
`hardSplit` instantiates the fuel with the length of the paragraph, which
suffices whenever `0 < cc`. -/
def hardSplitF (cc : Nat) : Nat → List Char → List (List Char)
  | 0, _ => []
  | _, [] => []
  | fuel + 1, p => p.take cc :: hardSplitF cc fuel (p.drop cc)

/-- Slicing of a paragraph longer than `chunk_chars` into fixed-size
windows. -/
def hardSplit (cc : Nat) (p : List Char) : List (List Char) :=
  hardSplitF cc p.length p

/-- The paragraph-accumulation loop of `_chunk_text`: greedily extend the
running chunk while `len(current) + len(p) + 2 <= chunk_chars`, otherwise
close it; an oversized paragraph is hard-split. -/
def chunkLoop (cc : Nat) : List (List Char) → List Char → List (List Char)
  | [], current => if current = [] then [] else [current]
  | p :: ps, current =>
    if current.length + p.length + 2 ≤ cc then
      chunkLoop cc ps (if current = [] then p else current ++ nnSep ++ p)
    else
      (if current = [] then [] else [current]) ++
        (if cc < p.length then hardSplit cc p ++ chunkLoop cc ps []
         else chunkLoop cc ps p)

/-- The non-empty trimmed paragraphs of the normalized, trimmed input:
`[p.strip() for p in text.split("\n\n") if p.strip()]` applied to
`text.replace("\r\n", "\n").strip()`. -/
def paragraphsOf (text : List Char) : List (List Char) :=
  ((splitNN (pyStrip (replaceCRLF text))).map pyStrip).filter (fun p => p ≠ [])

/-- `Summarizer._chunk_text`. -/
def chunkText (cc : Nat) (text : List Char) : List (List Char) :=
  if text = [] then []
  else if pyStrip (replaceCRLF text) = [] then []
  else chunkLoop cc (paragraphsOf text) []

/-- Join with the paragraph separator, `"\n\n".join(...)`. -/
def joinNN : List (List Char) → List Char := joinSep nnSep

/-- The separator-free content of a chunk: the chunk with every leftmost,
non-overlapping occurrence of the re-inserted `"\n\n"` separator removed
(formalizing "concatenation of chunks, ignoring re-inserted
separators"). -/
def contentOf (c : List Char) : List Char := (splitNN c).flatten

/-- Shape invariant of the trimmed paragraphs the chunk loop consumes:
non-empty, free of the `"\n\n"` separator, and not ending in a newline. -/
def goodPara (p : List Char) : Prop :=
  p ≠ [] ∧ noNN p = true ∧ p.getLast? ≠ some '\n'

/-! ### Prompt builder (`Summarizer._prompt_and_params`) -/

/-- Generation parameters: BART-family models use
`max_length`/`min_length`/`temperature`; other models use
`max_new_tokens`/`temperature`. -/
inductive GenParams where
  | bartP (max_length min_length : Nat) (temperature : ℚ) : GenParams
  | genP (max_new_tokens : Nat) (temperature : ℚ) : GenParams
deriving DecidableEq

/-- The model-family regime test: `"bart" in self.model_id.lower()`. -/
def isBart (modelId : List Char) : Bool :=
  containsSub ("bart").data (pyLower modelId)

/-- Instruction header for style `brief`. -/
def briefInstr : List Char :=
  ("You are a helpful assistant. Provide a concise summary in 2–4 sentences that captures only the main points. Do NOT repeat the input verbatim. Keep it neutral and do not add new facts.").data

/-- Instruction header for style `detailed`. -/
def detailedInstr : List Char :=
  ("You are a helpful assistant. Provide a clear, detailed summary covering key ideas, important details, and conclusions. Use paragraphs. Do NOT invent new facts.").data

/-- Instruction header for style `bullets`. -/
def bulletsInstr : List Char :=
  ("You are a helpful assistant. Summarize the text as 4–8 short bullet points, each 8–20 words. Do NOT repeat the input verbatim. Use hyphen \x27-\x27 at start of each bullet.").data

/-- One-shot example prepended for style `bullets`. -/
def bulletsExamples : List Char :=
  ("Example:\nText: The city will invest in schools and public transport to improve education and reduce traffic.\nSummary:\n- Investment in schools announced to improve education.\n- Upgrades to public transport planned to reduce traffic.\n\n").data

/-- Instruction header for an unrecognized style. -/
def genericInstr : List Char := ("Summarize the following text.").data

/-- Instruction-regime prompt assembly:
`f"{instr}\n\nText:\n{text}\n\nSummary:"`. -/
def instrPrompt (instr text : List Char) : List Char :=
  instr ++ ("\n\nText:\n").data ++ text ++ ("\n\nSummary:").data

/-- Body of `_prompt_and_params` after the style has been normalized
(`style = (style or "brief").lower()` is applied by the wrapper). -/
def promptAndParamsCore (temp : ℚ) (modelId text styleL : List Char) :
    List Char × GenParams :=
  if isBart modelId then
    (text,
      if styleL = ("brief").data then GenParams.bartP 50 10 temp
      else if styleL = ("detailed").data then GenParams.bartP 120 20 temp
      else if styleL = ("bullets").data then GenParams.bartP 80 15 temp
      else GenParams.bartP 60 10 temp)
  else if styleL = ("brief").data then
    (instrPrompt briefInstr text, GenParams.genP 140 temp)
  else if styleL = ("detailed").data then
    (instrPrompt detailedInstr text, GenParams.genP 400 temp)
  else if styleL = ("bullets").data then
    (bulletsExamples ++ instrPrompt bulletsInstr text, GenParams.genP 220 temp)
  else
    (instrPrompt genericInstr text, GenParams.genP 200 temp)

/-- Python truthiness-based default: `(style or "brief")` maps `None` and
the empty string to `"brief"`. -/
def styleOrBrief : Option (List Char) → List Char
  | none => ("brief").data
  | some s => if s = [] then ("brief").data else s

/-- `Summarizer._prompt_and_params`. -/
def promptAndParams (temp : ℚ) (modelId text : List Char)
    (style : Option (List Char)) : List Char × GenParams :=
  promptAndParamsCore temp modelId text (pyLower (styleOrBrief style))

/-! ### Echo detector (`Summarizer._looks_like_echo`) -/

/-- `Summarizer._looks_like_echo`, with `in_s`/`out_s` standing for the
whitespace-collapsed input and output.  The source's float comparison
`len(out_s) >= 0.9 * len(in_s)` is written multiplied out over ℕ (exact
for every reachable length). -/
def looksLikeEcho (inputText outputText : List Char) : Bool :=
  if outputText = [] then true
  else if collapseWS outputText = collapseWS inputText ∨
      containsSub (collapseWS inputText) (collapseWS outputText) = true ∨
      containsSub (collapseWS outputText) (collapseWS inputText) = true then
    true
  else if 9 * (collapseWS inputText).length ≤ 10 * (collapseWS outputText).length ∧
      40 < (collapseWS inputText).length then
    true
  else false

/-! ### Inference client (`Summarizer._call_hf`)

The remote endpoint is modelled as an oracle `client : Nat → HfResponse`
mapping the attempt number (1-based, as in `range(1, MAX_RETRIES + 1)`) to
the HTTP response of that attempt; the body text and its JSON decoding
(`None` when decoding fails) are both part of the oracle.  Transport-level
exceptions are outside the oracle model: every attempt yields a response.
The source iterates over a singleton URL list, so a `404` break falls
directly through to the final `raise`.  Wall-clock sleeping is recorded as
the list of slept durations (`RETRY_BASE_SECONDS * attempt`, exact
rationals standing for the float arithmetic). -/

/-- Parsed JSON values (numbers restricted to integers; the program never
inspects numeric payloads). -/
inductive JsonValue where
  | jstr (s : List Char) : JsonValue
  | jnum (n : Int) : JsonValue
  | jbool (b : Bool) : JsonValue
  | jnull : JsonValue
  | jarr (l : List JsonValue) : JsonValue
  | jobj (fields : List (List Char × JsonValue)) : JsonValue

/-- JSON string quoting as produced by `json.dumps` (the escapes the
program can produce; `ensure_ascii` escaping of non-ASCII characters is
outside the model). -/
def jsonQuote (s : List Char) : List Char :=
  '"' :: (s.flatMap fun c =>
    if c = '"' then ['\\', '"']
    else if c = '\\' then ['\\', '\\']
    else if c = '\n' then ['\\', 'n']
    else if c = '\t' then ['\\', 't']
    else if c = '\r' then ['\\', 'r']
    else [c]) ++ ['"']

/-- Model of `json.dumps` with the default separators `", "` and `": "`. -/
def dumps : JsonValue → List Char
  | .jstr s => jsonQuote s
  | .jnum n => (toString n).data
  | .jbool b => if b then ("true").data else ("false").data
  | .jnull => ("null").data
  | .jarr l =>
    '[' :: joinSep (", ").data (l.attach.map fun v => dumps v.1) ++ [']']
  | .jobj fields =>
    ("\x7b").data ++
      joinSep (", ").data
        (fields.attach.map fun kv =>
          jsonQuote kv.1.1 ++ (": ").data ++ dumps kv.1.2) ++
      ("\x7d").data
termination_by v => sizeOf v
decreasing_by
  · have h1 := List.sizeOf_lt_of_mem v.2
    simp only [JsonValue.jarr.sizeOf_spec]
    omega
  · have h1 := List.sizeOf_lt_of_mem kv.2
    have h2 : sizeOf kv.1 = 1 + sizeOf kv.1.1 + sizeOf kv.1.2 := by
      obtain ⟨⟨a, b⟩, hm⟩ := kv
      simp
    simp only [JsonValue.jobj.sizeOf_spec]
    omega

/-- One HTTP response of the mocked endpoint: status code, body text, and
the result of `resp.json()` (`none` when JSON decoding raises). -/
structure HfResponse where
  status : Nat
  body : List Char
  json : Option JsonValue

/-- The key-priority list used for response-shape normalization:
`("summary_text", "generated_text", "text", "result", "output")`. -/
def hfKeys : List (List Char) :=
  [("summary_text").data, ("generated_text").data, ("text").data,
   ("result").data, ("output").data]

/-- Dictionary membership plus lookup, `key in d` / `d[key]` (first
binding wins, as in a parsed-JSON `dict`). -/
def lookupKey : List (List Char × JsonValue) → List Char → Option JsonValue
  | [], _ => none
  | kv :: rest, k => if kv.1 = k then some kv.2 else lookupKey rest k

/-- First of `hfKeys` present in the object, with its value. -/
def firstKeyHit (fields : List (List Char × JsonValue)) :
    List (List Char) → Option JsonValue
  | [] => none
  | k :: ks =>
    match lookupKey fields k with
    | some v => some v
    | none => firstKeyHit fields ks

/-- `first[key] if isinstance(first[key], str) else json.dumps(first[key])`. -/
def strOrDumps : JsonValue → List Char
  | .jstr s => s
  | v => dumps v

/-- Response-shape normalization of `_call_hf` (lines parsing `data`):
single object, first element of a list (object or bare string), stringify
unknown shapes, and fall back to the raw body text. -/
def extractText (resp : HfResponse) : List Char :=
  match resp.json with
  | some (.jarr (first :: _)) =>
    match first with
    | .jobj fields =>
      match firstKeyHit fields hfKeys with
      | some v => strOrDumps v
      | none => dumps (.jobj fields)
    | .jstr s => s
    | v => dumps v
  | some (.jobj fields) =>
    (match firstKeyHit fields hfKeys with
     | some v => strOrDumps v
     | none => dumps (.jobj fields))
  | some _ => resp.body
  | none => resp.body

/-- The message of the transient `RuntimeError("model loading (503)")`. -/
def loadingMsg : List Char := ("model loading (503)").data

/-- Terminal outcomes of `_call_hf`, each one `SummarizationError` in the
source, tagged with the data its message carries. -/
inductive HfError where
  | gone : HfError
  | auth (status : Nat) (bodyTrunc : List Char) : HfError
  | apiFail (status : Nat) (bodyTrunc : List Char) : HfError
  | transientExhausted (cause : List Char) : HfError
  | allFailed (lastCause : Option (List Char)) : HfError
deriving DecidableEq

instance {ε α : Type} [DecidableEq ε] [DecidableEq α] :
    DecidableEq (Except ε α) := fun a b =>
  match a, b with
  | .ok x, .ok y =>
    if h : x = y then .isTrue (by rw [h])
    else .isFalse (by intro hh; cases hh; exact h rfl)
  | .error x, .error y =>
    if h : x = y then .isTrue (by rw [h])
    else .isFalse (by intro hh; cases hh; exact h rfl)
  | .ok _, .error _ => .isFalse (by intro hh; cases hh)
  | .error _, .ok _ => .isFalse (by intro hh; cases hh)

/-- Result of the attempt loop for one URL: either the call finished
(returned or raised), or the loop left the URL (`404` break, or the
attempt range was exhausted for `MAX_RETRIES = 0`). -/
inductive UrlOutcome where
  | done (r : Except HfError (List Char)) : UrlOutcome
  | broke (lastCause : Option (List Char)) : UrlOutcome
deriving DecidableEq

/-- Trace of the attempt loop: outcome, number of requests issued, and the
backoff durations slept, in order. -/
structure LoopOut where
  outcome : UrlOutcome
  requests : Nat
  sleeps : List ℚ
deriving DecidableEq

/-- Trace of a whole `_call_hf` call. -/
structure CallOut where
  result : Except HfError (List Char)
  requests : Nat
  sleeps : List ℚ
deriving DecidableEq

/-- The attempt loop `for attempt in range(1, MAX_RETRIES + 1)` of
`_call_hf`, for the single configured URL.  The fuel counts the
iterations left in the range; `callHf` instantiates it with `R`.  Status
classification, in source order: 410 terminal, 401/403 terminal, 503
transient (sleep `base * attempt` and retry while `attempt < R`, raise
terminal on the last attempt), 404 break, other `>= 400` terminal,
otherwise parse and return. -/
def attemptLoopF (R : Nat) (base : ℚ) (client : Nat → HfResponse) :
    Nat → Option (List Char) → Nat → LoopOut
  | 0, lastExc, _ => ⟨.broke lastExc, 0, []⟩
  | fuel + 1, lastExc, attempt =>
    let resp := client attempt
    if resp.status = 410 then ⟨.done (.error .gone), 1, []⟩
    else if resp.status = 401 ∨ resp.status = 403 then
      ⟨.done (.error (.auth resp.status (resp.body.take 500))), 1, []⟩
    else if resp.status = 503 then
      if attempt < R then
        let r := attemptLoopF R base client fuel (some loadingMsg) (attempt + 1)
        ⟨r.outcome, r.requests + 1, base * (attempt : ℚ) :: r.sleeps⟩
      else ⟨.done (.error (.transientExhausted loadingMsg)), 1, []⟩
    else if resp.status = 404 then ⟨.broke lastExc, 1, []⟩
    else if 400 ≤ resp.status then
      ⟨.done (.error (.apiFail resp.status (resp.body.take 500))), 1, []⟩
    else ⟨.done (.ok (extractText resp)), 1, []⟩

/-- `Summarizer._call_hf` over the mocked endpoint, with `R` the
configured `MAX_RETRIES` and `base` the configured
`RETRY_BASE_SECONDS`. -/
def callHf (R : Nat) (base : ℚ) (client : Nat → HfResponse) : CallOut :=
  let out := attemptLoopF R base client R none 1
  match out.outcome with
  | .done r => ⟨r, out.requests, out.sleeps⟩
  | .broke lastExc => ⟨.error (.allFailed lastExc), out.requests, out.sleeps⟩

/-! ### Orchestrator (`Summarizer.summarize`)

Per-chunk processing and synthesis are driven by a pure oracle
`call : List Char → GenParams → List Char` giving the text returned by
`_call_hf` for a prompt/parameter pair (the executions the claims below
quantify over are those in which no terminal inference error is raised;
a terminal error would abort the whole call). -/

/-- The deterministic local fallback for a chunk whose repair attempt also
echoed: first `min(30, max(10, len(words) // 6))` words, `"..."` appended
when the chunk has more than 30 words. -/
def localFallback (ch : List Char) : List Char :=
  let words := pyWords ch
  joinSep [' '] (words.take (min 30 (max 10 (words.length / 6)))) ++
    (if 30 < words.length then ("...").data else [])

/-- The stronger anti-verbatim instruction prepended on the repair attempt
for instruction-tuned models. -/
def strongerInstr : List Char :=
  ("Important: Do NOT repeat the original text verbatim. Summarize only the main points. If the text is short, condense to a single short sentence. ").data

/-- The (stripped) first inference output for a chunk. -/
def firstOut (call : List Char → GenParams → List Char) (temp : ℚ)
    (modelId : List Char) (style : Option (List Char)) (ch : List Char) :
    List Char :=
  pyStrip (call (promptAndParams temp modelId ch style).1
    (promptAndParams temp modelId ch style).2)

/-- The repair-variant parameters for a BART-family model: lower
`max_length` to at most 40. -/
def repairParams : GenParams → GenParams
  | .bartP ml mn t => .bartP (min ml 40) mn t
  | p => p

/-- The (stripped) repair-variant output for a chunk: BART models re-call
with capped `max_length`; instruction-tuned models prepend
`strongerInstr` to the prompt. -/
def repairOut (call : List Char → GenParams → List Char) (temp : ℚ)
    (modelId : List Char) (style : Option (List Char)) (ch : List Char) :
    List Char :=
  if isBart modelId then
    pyStrip (call (promptAndParams temp modelId ch style).1
      (repairParams (promptAndParams temp modelId ch style).2))
  else
    pyStrip (call
      (strongerInstr ++ ("\n\n").data ++ (promptAndParams temp modelId ch style).1)
      (promptAndParams temp modelId ch style).2)

/-- The loop body of `summarize` for one chunk: first attempt, echo check,
repair attempt, echo check, local fallback. -/
def processChunk (call : List Char → GenParams → List Char) (temp : ℚ)
    (modelId : List Char) (style : Option (List Char)) (ch : List Char) :
    List Char :=
  if looksLikeEcho ch (firstOut call temp modelId style ch) then
    (if looksLikeEcho ch (repairOut call temp modelId style ch) = false then
      repairOut call temp modelId style ch
    else localFallback ch)
  else firstOut call temp modelId style ch

/-- The numbered part list of the synthesis prompt:
`f"--- PART {idx+1} ---\n{p}\n\n"` for each partial, with `idx + 1`
starting at 1. -/
def synthParts : Nat → List (List Char) → List Char
  | _, [] => []
  | n, p :: ps =>
    ("--- PART ").data ++ (toString n).data ++ (" ---\n").data ++ p ++
      ("\n\n").data ++ synthParts (n + 1) ps

/-- The synthesis prompt combining all partial summaries. -/
def synthPrompt (partials : List (List Char)) : List Char :=
  ("Combine the following partial summaries into a single coherent summary. Remove duplicates and be concise.\n\n").data ++
    synthParts 1 partials

/-- Failure of `summarize` before any inference call. -/
inductive SummErr where
  | emptyInput : SummErr
deriving DecidableEq

/-- `Summarizer.summarize` over the pure call oracle: reject
empty/whitespace-only input, chunk, process each chunk in order, return a
single partial trimmed, otherwise synthesize with an echo check against
the entire original input and a join-partials fallback. -/
def summarize (call : List Char → GenParams → List Char) (temp : ℚ)
    (cc : Nat) (modelId : List Char) (style : Option (List Char))
    (text : List Char) : Except SummErr (List Char) :=
  if pyStrip text = [] then .error .emptyInput
  else
    let chunks := chunkText cc text
    let partials := chunks.map (processChunk call temp modelId style)
    match partials with
    | [p] => .ok (pyStrip p)
    | ps =>
      let final := pyStrip (call (synthPrompt ps) (GenParams.genP 220 temp))
      if looksLikeEcho text final then .ok (joinSep ['\n'] ps)
      else .ok final

/-! ### Lemmas: whitespace words -/

theorem takeWhile_app {p : Char → Bool} :
    ∀ (a : List Char) (x : Char) (r : List Char),
      (∀ c ∈ a, p c = true) → p x = false → (a ++ x :: r).takeWhile p = a := by
  intro a
  induction a with
  | nil => intro x r _ hx; simp [List.takeWhile_cons, hx]
  | cons c a' ih =>
    intro x r ha hx
    rw [List.cons_append, List.takeWhile_cons, ha c (by simp), if_pos rfl]
    exact congrArg (List.cons c) (ih x r (fun d hd => ha d (by simp [hd])) hx)

theorem dropWhile_app {p : Char → Bool} :
    ∀ (a : List Char) (x : Char) (r : List Char),
      (∀ c ∈ a, p c = true) → p x = false → (a ++ x :: r).dropWhile p = x :: r := by
  intro a
  induction a with
  | nil => intro x r _ hx; simp [List.dropWhile_cons, hx]
  | cons c a' ih =>
    intro x r ha hx
    rw [List.cons_append, List.dropWhile_cons, ha c (by simp), if_pos rfl]
    exact ih x r (fun d hd => ha d (by simp [hd])) hx

theorem pyWordsF_fuel_irrel :
    ∀ fuel fuel' (l : List Char), l.length ≤ fuel → l.length ≤ fuel' →
      pyWordsF fuel l = pyWordsF fuel' l := by
  intro fuel
  induction fuel with
  | zero =>
    intro fuel' l h _
    have hl : l = [] := List.length_eq_zero.mp (Nat.le_zero.mp h)
    subst hl
    cases fuel' <;> rfl
  | succ fuel ih =>
    intro fuel' l h h'
    cases l with
    | nil => cases fuel' <;> rfl
    | cons c rest =>
      cases fuel' with
      | zero => exact absurd h' (by simp)
      | succ fuel' =>
        simp only [pyWordsF]
        by_cases hc : pyIsSpace c = true
        · rw [if_pos hc, if_pos hc]
          exact ih fuel' rest (by simpa using h) (by simpa using h')
        · rw [if_neg hc, if_neg hc]
          have hd : (rest.dropWhile (fun d => !pyIsSpace d)).length ≤ rest.length :=
            (List.dropWhile_suffix _).length_le
          rw [ih fuel' _ (le_trans hd (by simpa using h)) (le_trans hd (by simpa using h'))]

theorem pyWords_nil : pyWords [] = [] := rfl

theorem pyWords_cons_space {c : Char} (l : List Char) (h : pyIsSpace c = true) :
    pyWords (c :: l) = pyWords l := by
  show pyWordsF (c :: l).length (c :: l) = pyWordsF l.length l
  rw [List.length_cons, pyWordsF, if_pos h]

theorem pyWords_cons_word {c : Char} (l : List Char) (h : pyIsSpace c = false) :
    pyWords (c :: l) =
      (c :: l.takeWhile (fun d => !pyIsSpace d)) ::
        pyWords (l.dropWhile (fun d => !pyIsSpace d)) := by
  show pyWordsF (c :: l).length (c :: l) = _
  rw [List.length_cons, pyWordsF, if_neg (by simp [h])]
  have hd : (l.dropWhile (fun d => !pyIsSpace d)).length ≤ l.length :=
    (List.dropWhile_suffix _).length_le
  exact congrArg (List.cons _)
    (pyWordsF_fuel_irrel l.length (l.dropWhile (fun d => !pyIsSpace d)).length _ hd le_rfl)

/-- A whitespace-only string splits into no words. -/
theorem pyWords_allspace :
    ∀ l : List Char, (∀ c ∈ l, pyIsSpace c = true) → pyWords l = [] := by
  intro l
  induction l with
  | nil => intro _; rfl
  | cons c rest ih =>
    intro h
    rw [pyWords_cons_space rest (h c (by simp))]
    exact ih (fun d hd => h d (by simp [hd]))

theorem pyWords_words_good_aux :
    ∀ n (l : List Char), l.length ≤ n →
      ∀ w ∈ pyWords l, w ≠ [] ∧ ∀ c ∈ w, pyIsSpace c = false := by
  intro n
  induction n with
  | zero =>
    intro l h w hw
    have hl : l = [] := List.length_eq_zero.mp (Nat.le_zero.mp h)
    subst hl
    simp [pyWords_nil] at hw
  | succ n ih =>
    intro l h w hw
    cases l with
    | nil => simp [pyWords_nil] at hw
    | cons c rest =>
      by_cases hc : pyIsSpace c = true
      · rw [pyWords_cons_space rest hc] at hw
        exact ih rest (by simpa using h) w hw
      · have hc' : pyIsSpace c = false := by simpa using hc
        rw [pyWords_cons_word rest hc'] at hw
        rcases List.mem_cons.mp hw with h1 | h2
        · subst h1
          refine ⟨by simp, ?_⟩
          intro d hd
          rcases List.mem_cons.mp hd with h3 | h4
          · subst h3; exact hc'
          · have h5 := List.mem_takeWhile_imp h4
            simpa using h5
        · exact ih _
            (le_trans (List.dropWhile_suffix _).length_le (by simpa using h)) w h2

/-- Every word produced by `pyWords` is non-empty and whitespace-free. -/
theorem pyWords_words_good (l : List Char) :
    ∀ w ∈ pyWords l, w ≠ [] ∧ ∀ c ∈ w, pyIsSpace c = false :=
  pyWords_words_good_aux l.length l le_rfl

/-- A non-empty whitespace-free string is a single word. -/
theorem pyWords_single {w : List Char} (hne : w ≠ [])
    (hw : ∀ c ∈ w, pyIsSpace c = false) : pyWords w = [w] := by
  cases w with
  | nil => exact absurd rfl hne
  | cons c rest =>
    rw [pyWords_cons_word rest (hw c (by simp))]
    have ht : rest.takeWhile (fun d => !pyIsSpace d) = rest :=
      List.takeWhile_eq_self_iff.mpr (by intro d hd; simp [hw d (by simp [hd])])
    have hd : rest.dropWhile (fun d => !pyIsSpace d) = [] :=
      List.dropWhile_eq_nil_iff.mpr (by intro d hd; simp [hw d (by simp [hd])])
    rw [ht, hd, pyWords_nil]

/-- Splitting after a completed word: `pyWords (w ++ ' ' :: rest)`
yields `w` followed by the words of `rest`. -/
theorem pyWords_word_append {w : List Char} (rest : List Char) (hne : w ≠ [])
    (hw : ∀ c ∈ w, pyIsSpace c = false) :
    pyWords (w ++ ' ' :: rest) = w :: pyWords rest := by
  cases w with
  | nil => exact absurd rfl hne
  | cons c w' =>
    rw [List.cons_append, pyWords_cons_word _ (hw c (by simp))]
    have ha : ∀ d ∈ w', (fun d => !pyIsSpace d) d = true := by
      intro d hd; simp [hw d (by simp [hd])]
    have hx : (fun d => !pyIsSpace d) ' ' = false := by decide
    rw [takeWhile_app w' ' ' rest ha hx, dropWhile_app w' ' ' rest ha hx,
      pyWords_cons_space rest (by decide)]

/-- `pyWords` inverts the single-space join of non-empty whitespace-free
words. -/
theorem pyWords_joinSep :
    ∀ ws : List (List Char),
      (∀ w ∈ ws, w ≠ [] ∧ ∀ c ∈ w, pyIsSpace c = false) →
      pyWords (joinSep [' '] ws) = ws := by
  intro ws
  induction ws with
  | nil => intro _; rfl
  | cons w ws' ih =>
    intro h
    cases ws' with
    | nil =>
      show pyWords w = [w]
      exact pyWords_single (h w (by simp)).1 (h w (by simp)).2
    | cons v vs =>
      have : joinSep [' '] (w :: v :: vs) = w ++ ' ' :: joinSep [' '] (v :: vs) := by
        simp [joinSep]
      rw [this,
        pyWords_word_append _ (h w (by simp)).1 (h w (by simp)).2,
        ih (fun u hu => h u (by simp [hu]))]

/-- `pyWords` of a space-join with a whitespace-free block glued to the
end: the last word absorbs the block, the word count is unchanged. -/
theorem pyWords_joinSep_glue :
    ∀ (ws : List (List Char)) (d : List Char) (hne : ws ≠ []), d ≠ [] →
      (∀ w ∈ ws, w ≠ [] ∧ ∀ c ∈ w, pyIsSpace c = false) →
      (∀ c ∈ d, pyIsSpace c = false) →
      pyWords (joinSep [' '] ws ++ d) =
        ws.dropLast ++ [ws.getLast hne ++ d] := by
  intro ws
  induction ws with
  | nil => intro d h; exact absurd rfl h
  | cons w ws' ih =>
    intro d _ hd h hdf
    cases ws' with
    | nil =>
      show pyWords (w ++ d) = [w ++ d]
      refine pyWords_single (by simp [(h w (by simp)).1]) ?_
      intro c hc
      rcases List.mem_append.mp hc with h1 | h2
      · exact (h w (by simp)).2 c h1
      · exact hdf c h2
    | cons v vs =>
      have hj : joinSep [' '] (w :: v :: vs) ++ d =
          w ++ ' ' :: (joinSep [' '] (v :: vs) ++ d) := by
        simp [joinSep]
      rw [hj, pyWords_word_append _ (h w (by simp)).1 (h w (by simp)).2,
        ih d (by simp) hd (fun u hu => h u (by simp [hu])) hdf]
      simp [List.getLast_cons]

/-! ### Lemmas: strip -/

theorem dropWhile_head?_not {p : Char → Bool} :
    ∀ (l : List Char) (c : Char), (l.dropWhile p).head? = some c → p c = false := by
  intro l
  induction l with
  | nil => intro c h; simp [List.dropWhile] at h
  | cons x rest ih =>
    intro c h
    rw [List.dropWhile_cons] at h
    by_cases hx : p x = true
    · rw [if_pos hx] at h
      exact ih c h
    · rw [if_neg hx] at h
      have : x = c := by simpa using h
      subst this
      simpa using hx

/-- A non-empty strip result ends with a non-whitespace character. -/
theorem pyStrip_getLast?_not_space (l : List Char) (c : Char)
    (h : (pyStrip l).getLast? = some c) : pyIsSpace c = false := by
  unfold pyStrip at h
  rw [List.getLast?_reverse] at h
  exact dropWhile_head?_not _ c h

/-- Strip never grows the string. -/
theorem pyStrip_length_le (l : List Char) : (pyStrip l).length ≤ l.length := by
  unfold pyStrip
  calc ((l.dropWhile pyIsSpace).reverse.dropWhile pyIsSpace).reverse.length
      = ((l.dropWhile pyIsSpace).reverse.dropWhile pyIsSpace).length := by
        rw [List.length_reverse]
    _ ≤ (l.dropWhile pyIsSpace).reverse.length := (List.dropWhile_suffix _).length_le
    _ = (l.dropWhile pyIsSpace).length := by rw [List.length_reverse]
    _ ≤ l.length := (List.dropWhile_suffix _).length_le

/-- Strip yields a contiguous piece of its argument. -/
theorem pyStrip_within (l : List Char) : pyStrip l <:+: l := by
  have h1 : l.dropWhile pyIsSpace <:+ l := List.dropWhile_suffix _
  have h2 : pyStrip l <+: l.dropWhile pyIsSpace := by
    unfold pyStrip
    rw [← List.reverse_suffix]
    have h0 : (l.dropWhile pyIsSpace).reverse.dropWhile pyIsSpace <:+
        (l.dropWhile pyIsSpace).reverse := List.dropWhile_suffix pyIsSpace
    simpa using h0
  exact h2.isInfix.trans h1.isInfix

theorem dropWhile_eq_nil_of_allspace {p : Char → Bool} :
    ∀ l : List Char, (∀ c ∈ l, p c = true) → l.dropWhile p = [] := by
  intro l
  induction l with
  | nil => intro _; rfl
  | cons c rest ih =>
    intro h
    rw [List.dropWhile_cons, if_pos (h c (by simp))]
    exact ih (fun d hd => h d (by simp [hd]))

/-- Strip of a whitespace-only string is empty. -/
theorem pyStrip_eq_nil_of_allspace (l : List Char)
    (h : ∀ c ∈ l, pyIsSpace c = true) : pyStrip l = [] := by
  unfold pyStrip
  rw [dropWhile_eq_nil_of_allspace l h]
  rfl

/-- A non-empty strip result contains a non-whitespace character. -/
theorem pyStrip_has_nonspace (l : List Char) (h : pyStrip l ≠ []) :
    ∃ c ∈ pyStrip l, pyIsSpace c = false := by
  obtain ⟨c, hc⟩ : ∃ c, (pyStrip l).getLast? = some c := by
    cases hgl : (pyStrip l).getLast? with
    | none => exact absurd (List.getLast?_eq_none_iff.mp hgl) h
    | some c => exact ⟨c, rfl⟩
  refine ⟨c, ?_, pyStrip_getLast?_not_space l c hc⟩
  have hmem : c ∈ (pyStrip l).getLast? := by simp [Option.mem_def, hc]
  rcases List.mem_getLast?_eq_getLast hmem with ⟨hne, hcc⟩
  rw [hcc]
  exact List.getLast_mem hne

/-! ### Lemmas: the `"\n\n"` separator -/

theorem noNN_tail {c : Char} {l : List Char} (h : noNN (c :: l) = true) :
    noNN l = true := by
  cases l with
  | nil => rfl
  | cons c2 l' =>
    by_cases hp : c = '\n' ∧ c2 = '\n'
    · rw [noNN, if_pos hp] at h
      cases h
    · rw [noNN, if_neg hp] at h
      exact h

theorem noNN_drop : ∀ (n : Nat) (l : List Char), noNN l = true → noNN (l.drop n) = true := by
  intro n
  induction n with
  | zero => intro l h; simpa using h
  | succ n ih =>
    intro l h
    cases l with
    | nil => rfl
    | cons c l' => exact ih l' (noNN_tail h)

theorem noNN_take : ∀ (l : List Char) (n : Nat), noNN l = true → noNN (l.take n) = true := by
  intro l
  induction l with
  | nil => intro n _; simp [noNN]
  | cons c l' ih =>
    intro n h
    cases n with
    | zero => rfl
    | succ n =>
      rw [List.take_succ_cons]
      cases l' with
      | nil => simp [noNN]
      | cons c2 l'' =>
        cases n with
        | zero => simp [noNN]
        | succ n =>
          rw [List.take_succ_cons]
          have hp : ¬(c = '\n' ∧ c2 = '\n') := by
            intro hc
            rw [noNN, if_pos hc] at h
            cases h
          have ht : noNN (c2 :: (l''.take n)) = true := by
            have h2 := ih (n + 1) (noNN_tail h)
            simpa using h2
          rw [noNN, if_neg hp]
          exact ht

/-- `noNN` is inherited by contiguous pieces. -/
theorem noNN_within {l1 l2 : List Char} (h : l1 <:+: l2) (h2 : noNN l2 = true) :
    noNN l1 = true := by
  obtain ⟨s, t, rfl⟩ := h
  have hd : (s ++ l1 ++ t).drop s.length = l1 ++ t := by
    rw [List.append_assoc, List.drop_left]
  have h3 : noNN (l1 ++ t) = true := by rw [← hd]; exact noNN_drop _ _ h2
  have ht : (l1 ++ t).take l1.length = l1 := List.take_left l1 t
  rw [← ht]
  exact noNN_take _ _ h3

/-! ### Lemmas: split on the paragraph separator -/

theorem joinSep_cons_cons (sep p q : List Char) (ps : List (List Char)) :
    joinSep sep (p :: q :: ps) = p ++ sep ++ joinSep sep (q :: ps) := rfl

theorem splitNN_cons_NN (rest : List Char) :
    splitNN ('\n' :: '\n' :: rest) = [] :: splitNN rest := by
  rw [splitNN, if_pos ⟨rfl, rfl⟩]

theorem splitNN_ne_nil : ∀ l : List Char, splitNN l ≠ [] := by
  intro l
  cases l with
  | nil => simp [splitNN]
  | cons c1 l' =>
    cases l' with
    | nil => simp [splitNN]
    | cons c2 rest =>
      rw [splitNN]
      by_cases h : c1 = '\n' ∧ c2 = '\n'
      · rw [if_pos h]; simp
      · rw [if_neg h]
        cases splitNN (c2 :: rest) <;> simp

theorem splitNN_exists_cons (l : List Char) :
    ∃ piece pieces, splitNN l = piece :: pieces := by
  cases h : splitNN l with
  | nil => exact absurd h (splitNN_ne_nil l)
  | cons p ps => exact ⟨p, ps, rfl⟩

theorem splitNN_cons_cons_ne {c1 c2 : Char} {rest piece : List Char}
    {pieces : List (List Char)} (h : ¬(c1 = '\n' ∧ c2 = '\n'))
    (heq : splitNN (c2 :: rest) = piece :: pieces) :
    splitNN (c1 :: c2 :: rest) = (c1 :: piece) :: pieces := by
  rw [splitNN, if_neg h, heq]

/-- The head piece of `splitNN (c :: rest)` is empty or starts with
`c`. -/
theorem splitNN_head_shape {c : Char} {rest piece : List Char}
    {pieces : List (List Char)} (heq : splitNN (c :: rest) = piece :: pieces) :
    piece = [] ∨ piece.head? = some c := by
  cases rest with
  | nil =>
    have h : piece :: pieces = [[c]] := by rw [← heq]; rfl
    right
    simp [List.cons_eq_cons.mp h]
  | cons c3 rest' =>
    by_cases h3 : c = '\n' ∧ c3 = '\n'
    · left
      have h : piece :: pieces = [] :: splitNN rest' := by
        rw [← heq]
        rw [show c = '\n' from h3.1, show c3 = '\n' from h3.2, splitNN_cons_NN]
      exact (List.cons_eq_cons.mp h).1
    · right
      obtain ⟨p2, ps2, hp2⟩ := splitNN_exists_cons (c3 :: rest')
      have h : piece :: pieces = (c :: p2) :: ps2 := by
        rw [← heq, splitNN_cons_cons_ne h3 hp2]
      simp [(List.cons_eq_cons.mp h).1]

/-- Splitting and re-joining on the separator is the identity. -/
theorem joinNN_splitNN : ∀ l : List Char, joinNN (splitNN l) = l := by
  intro l
  induction l using splitNN.induct with
  | case1 => rfl
  | case2 c => rfl
  | case3 c1 c2 rest h ih =>
    obtain ⟨rfl, rfl⟩ : c1 = '\n' ∧ c2 = '\n' := h
    rw [splitNN_cons_NN]
    obtain ⟨q, qs, hq⟩ := splitNN_exists_cons rest
    rw [hq]
    show joinSep nnSep ([] :: q :: qs) = _
    rw [joinSep_cons_cons]
    have hj : joinSep nnSep (q :: qs) = rest := by rw [← hq]; exact ih
    rw [hj]
    rfl
  | case4 c1 c2 rest h heq ih =>
    exact absurd heq (splitNN_ne_nil _)
  | case5 c1 c2 rest h piece pieces heq ih =>
    rw [splitNN_cons_cons_ne h heq]
    have hj : joinSep nnSep (piece :: pieces) = c2 :: rest := by
      rw [← heq]; exact ih
    cases pieces with
    | nil =>
      have hp : piece = c2 :: rest := hj
      show joinSep nnSep [c1 :: piece] = _
      simp [joinSep, hp]
    | cons q qs =>
      show joinSep nnSep ((c1 :: piece) :: q :: qs) = _
      rw [joinSep_cons_cons]
      rw [joinSep_cons_cons] at hj
      show c1 :: (piece ++ nnSep ++ joinSep nnSep (q :: qs)) = _
      rw [hj]

/-- Every piece produced by `splitNN` is separator-free. -/
theorem splitNN_pieces_noNN : ∀ l : List Char, ∀ q ∈ splitNN l, noNN q = true := by
  intro l
  induction l using splitNN.induct with
  | case1 => intro q hq; simp [splitNN] at hq; simp [hq, noNN]
  | case2 c => intro q hq; simp [splitNN] at hq; simp [hq, noNN]
  | case3 c1 c2 rest h ih =>
    obtain ⟨rfl, rfl⟩ : c1 = '\n' ∧ c2 = '\n' := h
    intro q hq
    rw [splitNN_cons_NN] at hq
    rcases List.mem_cons.mp hq with h1 | h2
    · simp [h1, noNN]
    · exact ih q h2
  | case4 c1 c2 rest h heq ih =>
    exact absurd heq (splitNN_ne_nil _)
  | case5 c1 c2 rest h piece pieces heq ih =>
    intro q hq
    rw [splitNN_cons_cons_ne h heq] at hq
    rcases List.mem_cons.mp hq with h1 | h2
    · subst h1
      have hpn : noNN piece = true := ih piece (by rw [heq]; simp)
      cases piece with
      | nil => simp [noNN]
      | cons d piece' =>
        have hd : d = c2 := by
          rcases splitNN_head_shape heq with h3 | h3
          · cases h3
          · simpa using h3
        subst hd
        rw [noNN, if_neg h]
        exact hpn
    · exact ih q (by rw [heq]; simp [h2])

/-- A separator-free string splits into itself alone. -/
theorem splitNN_of_noNN : ∀ p : List Char, noNN p = true → splitNN p = [p] := by
  intro p
  induction p with
  | nil => intro _; rfl
  | cons c p' ih =>
    intro h
    cases p' with
    | nil => rfl
    | cons c2 p'' =>
      have hp : ¬(c = '\n' ∧ c2 = '\n') := by
        intro hc
        rw [noNN, if_pos hc] at h
        cases h
      have h2 : noNN (c2 :: p'') = true := by
        rw [noNN, if_neg hp] at h
        exact h
      exact splitNN_cons_cons_ne hp (ih h2)

/-- Separator removal is the identity on separator-free strings. -/
theorem contentOf_of_noNN (p : List Char) (h : noNN p = true) :
    contentOf p = p := by
  unfold contentOf
  rw [splitNN_of_noNN p h]
  simp

/-- Splitting a glued `piece ++ "\n\n" ++ rest` whose piece is
separator-free, non-empty and not newline-terminated cuts exactly at the
glued separator. -/
theorem splitNN_glue :
    ∀ p : List Char, noNN p = true → p ≠ [] → p.getLast? ≠ some '\n' →
      ∀ rest, splitNN (p ++ '\n' :: '\n' :: rest) = p :: splitNN rest := by
  intro p
  induction p with
  | nil => intro _ h; exact absurd rfl h
  | cons c p' ih =>
    intro hno _ hlast rest
    cases p' with
    | nil =>
      have hc : ¬(c = '\n' ∧ '\n' = '\n') := by
        intro hc
        exact hlast (by simp [hc.1])
      rw [List.cons_append, List.nil_append]
      exact splitNN_cons_cons_ne hc (splitNN_cons_NN rest)
    | cons c2 p'' =>
      have hp : ¬(c = '\n' ∧ c2 = '\n') := by
        intro hc
        rw [noNN, if_pos hc] at hno
        cases hno
      have h2 : noNN (c2 :: p'') = true := by
        rw [noNN, if_neg hp] at hno
        exact hno
      have hl2 : (c2 :: p'').getLast? ≠ some '\n' := by
        have he : (c :: c2 :: p'').getLast? = (c2 :: p'').getLast? :=
          List.getLast?_cons_cons
        rw [← he]
        exact hlast
      have hrec := ih h2 (by simp) hl2 rest
      rw [List.cons_append]
      exact splitNN_cons_cons_ne hp (by simpa using hrec)

/-- Separator removal across a well-formed join: the concatenation of the
pieces is recovered. -/
theorem contentOf_joinNN :
    ∀ ps : List (List Char), (∀ p ∈ ps, goodPara p) →
      contentOf (joinNN ps) = ps.flatten := by
  intro ps
  induction ps with
  | nil =>
    intro _
    show contentOf [] = []
    rfl
  | cons p ps' ih =>
    intro h
    cases ps' with
    | nil =>
      show contentOf p = p ++ []
      rw [contentOf_of_noNN p (h p (by simp)).2.1]
      simp
    | cons q qs =>
      show contentOf (joinSep nnSep (p :: q :: qs)) = _
      rw [joinSep_cons_cons]
      unfold contentOf
      have hgl : splitNN (p ++ '\n' :: '\n' :: joinSep nnSep (q :: qs)) =
          p :: splitNN (joinSep nnSep (q :: qs)) := by
        have hg := h p (by simp)
        exact splitNN_glue p hg.2.1 hg.1 hg.2.2 _
      have hshape : p ++ nnSep ++ joinSep nnSep (q :: qs) =
          p ++ '\n' :: '\n' :: joinSep nnSep (q :: qs) := by
        simp [nnSep]
      rw [hshape, hgl]
      have hrec := ih (fun r hr => h r (by simp [hr]))
      unfold contentOf at hrec
      show p ++ (splitNN (joinSep nnSep (q :: qs))).flatten = _
      rw [show joinNN (q :: qs) = joinSep nnSep (q :: qs) from rfl] at hrec
      rw [hrec]
      simp

/-! ### Lemmas: hard split of oversized paragraphs -/

theorem hardSplitF_nil (cc : Nat) : ∀ fuel, hardSplitF cc fuel [] = [] := by
  intro fuel
  cases fuel <;> rfl

theorem hardSplitF_zero (cc : Nat) (p : List Char) : hardSplitF cc 0 p = [] := by
  cases p <;> rfl

theorem hardSplitF_cons (cc fuel : Nat) (c : Char) (p' : List Char) :
    hardSplitF cc (fuel + 1) (c :: p') =
      (c :: p').take cc :: hardSplitF cc fuel ((c :: p').drop cc) := rfl

/-- The windows of a hard split concatenate back to the paragraph. -/
theorem hardSplitF_flatten :
    ∀ (fuel : Nat) (p : List Char) (cc : Nat), 0 < cc → p.length ≤ fuel →
      (hardSplitF cc fuel p).flatten = p := by
  intro fuel
  induction fuel with
  | zero =>
    intro p cc _ h
    have : p = [] := List.length_eq_zero.mp (Nat.le_zero.mp h)
    subst this
    rfl
  | succ fuel ih =>
    intro p cc hcc h
    cases p with
    | nil => rfl
    | cons c p' =>
      rw [hardSplitF_cons]
      have hd : ((c :: p').drop cc).length ≤ fuel := by
        rw [List.length_drop, List.length_cons]
        simp only [List.length_cons] at h
        omega
      rw [List.flatten_cons, ih _ cc hcc hd, List.take_append_drop]

theorem hardSplitF_mem_length :
    ∀ (fuel : Nat) (p : List Char) (cc : Nat),
      ∀ w ∈ hardSplitF cc fuel p, w.length ≤ cc := by
  intro fuel
  induction fuel with
  | zero => intro p cc w hw; rw [hardSplitF_zero] at hw; cases hw
  | succ fuel ih =>
    intro p cc w hw
    cases p with
    | nil => cases hw
    | cons c p' =>
      rw [hardSplitF_cons] at hw
      rcases List.mem_cons.mp hw with h1 | h2
      · subst h1
        simp
      · exact ih _ cc w h2

theorem hardSplitF_mem_noNN :
    ∀ (fuel : Nat) (p : List Char) (cc : Nat), noNN p = true →
      ∀ w ∈ hardSplitF cc fuel p, noNN w = true := by
  intro fuel
  induction fuel with
  | zero => intro p cc _ w hw; rw [hardSplitF_zero] at hw; cases hw
  | succ fuel ih =>
    intro p cc hp w hw
    cases p with
    | nil => cases hw
    | cons c p' =>
      rw [hardSplitF_cons] at hw
      rcases List.mem_cons.mp hw with h1 | h2
      · subst h1
        exact noNN_take _ _ hp
      · exact ih _ cc (noNN_drop _ _ hp) w h2

theorem hardSplitF_ne_nil (cc fuel : Nat) (p : List Char) (hp : p ≠ [])
    (hf : 0 < fuel) : hardSplitF cc fuel p ≠ [] := by
  cases fuel with
  | zero => cases hf
  | succ fuel =>
    cases p with
    | nil => exact absurd rfl hp
    | cons c p' =>
      rw [hardSplitF_cons]
      simp

/-- All windows of a hard split except possibly the last have length
exactly `cc`. -/
theorem hardSplitF_dropLast_length :
    ∀ (fuel : Nat) (p : List Char) (cc : Nat), 0 < cc → p.length ≤ fuel →
      ∀ w ∈ (hardSplitF cc fuel p).dropLast, w.length = cc := by
  intro fuel
  induction fuel with
  | zero =>
    intro p cc _ h w hw
    rw [hardSplitF_zero] at hw
    cases hw
  | succ fuel ih =>
    intro p cc hcc h w hw
    cases p with
    | nil => cases hw
    | cons c p' =>
      rw [hardSplitF_cons] at hw
      by_cases hdrop : (c :: p').drop cc = []
      · rw [hdrop, hardSplitF_nil] at hw
        cases hw
      · have hfuel : 0 < fuel := by
          by_contra hf
          have : fuel = 0 := by omega
          subst this
          have h1 : ((c :: p').drop cc).length = 0 := by
            rw [List.length_drop, List.length_cons]
            simp only [List.length_cons] at h
            omega
          exact hdrop (List.length_eq_zero.mp h1)
        have hrec_ne : hardSplitF cc fuel ((c :: p').drop cc) ≠ [] :=
          hardSplitF_ne_nil cc fuel _ hdrop hfuel
        rw [List.dropLast_cons_of_ne_nil hrec_ne] at hw
        rcases List.mem_cons.mp hw with h1 | h2
        · subst h1
          have hlen : cc < (c :: p').length := by
            by_contra hlt
            exact hdrop (List.drop_eq_nil_of_le (by omega))
          rw [List.length_take]
          omega
        · exact ih _ cc hcc
            (by rw [List.length_drop]; simp only [List.length_cons] at h ⊢; omega) w h2

/-! ### Lemmas: the chunk accumulation loop -/

theorem chunkLoop_nil (cc : Nat) (current : List Char) :
    chunkLoop cc [] current = if current = [] then [] else [current] := rfl

theorem chunkLoop_cons (cc : Nat) (p : List Char) (ps : List (List Char))
    (current : List Char) :
    chunkLoop cc (p :: ps) current =
      if current.length + p.length + 2 ≤ cc then
        chunkLoop cc ps (if current = [] then p else current ++ nnSep ++ p)
      else
        (if current = [] then [] else [current]) ++
          (if cc < p.length then hardSplit cc p ++ chunkLoop cc ps []
           else chunkLoop cc ps p) := rfl

theorem joinNN_ne_nil_of_good :
    ∀ cs : List (List Char), cs ≠ [] → (∀ p ∈ cs, p ≠ []) → joinNN cs ≠ [] := by
  intro cs h1 h2
  cases cs with
  | nil => exact absurd rfl h1
  | cons c cs' =>
    cases cs' with
    | nil => exact h2 c (by simp)
    | cons q qs =>
      show joinSep nnSep (c :: q :: qs) ≠ []
      rw [joinSep_cons_cons]
      simp [h2 c (by simp)]

theorem joinNN_append_single :
    ∀ cs : List (List Char), cs ≠ [] → ∀ p,
      joinNN (cs ++ [p]) = joinNN cs ++ nnSep ++ p := by
  intro cs
  induction cs with
  | nil => intro h; exact absurd rfl h
  | cons c cs' ih =>
    intro _ p
    cases cs' with
    | nil =>
      show joinSep nnSep [c, p] = _
      rw [joinSep_cons_cons]
      rfl
    | cons q qs =>
      show joinSep nnSep (c :: q :: (qs ++ [p])) = _
      rw [joinSep_cons_cons]
      rw [show joinSep nnSep (q :: (qs ++ [p])) = joinNN ((q :: qs) ++ [p]) from rfl,
        ih (by simp) p]
      show _ = joinSep nnSep (c :: q :: qs) ++ nnSep ++ p
      rw [joinSep_cons_cons]
      simp [List.append_assoc, joinNN]

/-- Every chunk emitted by the loop respects the size bound, provided the
running chunk does. -/
theorem chunkLoop_mem_length (cc : Nat) :
    ∀ (ps : List (List Char)) (current : List Char), current.length ≤ cc →
      ∀ ch ∈ chunkLoop cc ps current, ch.length ≤ cc := by
  intro ps
  induction ps with
  | nil =>
    intro current hcur ch hch
    rw [chunkLoop_nil] at hch
    by_cases h : current = []
    · rw [if_pos h] at hch; cases hch
    · rw [if_neg h] at hch
      obtain rfl := List.mem_singleton.mp hch
      exact hcur
  | cons p ps' ih =>
    intro current hcur ch hch
    rw [chunkLoop_cons] at hch
    by_cases hfit : current.length + p.length + 2 ≤ cc
    · rw [if_pos hfit] at hch
      by_cases hce : current = []
      · rw [if_pos hce] at hch
        exact ih p (by omega) ch hch
      · rw [if_neg hce] at hch
        refine ih _ ?_ ch hch
        have : (current ++ nnSep ++ p).length = current.length + 2 + p.length := by
          simp [nnSep]
          omega
        omega
    · rw [if_neg hfit] at hch
      rcases List.mem_append.mp hch with h1 | h2
      · by_cases hce : current = []
        · rw [if_pos hce] at h1; cases h1
        · rw [if_neg hce] at h1
          obtain rfl := List.mem_singleton.mp h1
          exact hcur
      · by_cases hbig : cc < p.length
        · rw [if_pos hbig] at h2
          rcases List.mem_append.mp h2 with h3 | h4
          · exact hardSplitF_mem_length _ _ _ ch h3
          · exact ih [] (by simp) ch h4
        · rw [if_neg hbig] at h2
          exact ih p (by omega) ch h2

/-- Separator-removed content of the emitted chunks: the loop preserves
the concatenation of the (good) accumulated and pending paragraphs. -/
theorem chunkLoop_content (cc : Nat) (hcc : 0 < cc) :
    ∀ (ps cs : List (List Char)), (∀ p ∈ cs, goodPara p) →
      (∀ p ∈ ps, goodPara p) →
      ((chunkLoop cc ps (joinNN cs)).map contentOf).flatten =
        cs.flatten ++ ps.flatten := by
  intro ps
  induction ps with
  | nil =>
    intro cs hcs _
    rw [chunkLoop_nil]
    by_cases h : joinNN cs = []
    · rw [if_pos h]
      have hcs0 : cs = [] := by
        cases cs with
        | nil => rfl
        | cons c cs' =>
          exact absurd h
            (joinNN_ne_nil_of_good _ (by simp) (fun p hp => (hcs p hp).1))
      subst hcs0
      rfl
    · rw [if_neg h]
      show contentOf (joinNN cs) ++ [] = _
      rw [contentOf_joinNN cs hcs]
      simp
  | cons p ps' ih =>
    intro cs hcs hps
    rw [chunkLoop_cons]
    by_cases hfit : (joinNN cs).length + p.length + 2 ≤ cc
    · rw [if_pos hfit]
      have hstep : (if joinNN cs = [] then p else joinNN cs ++ nnSep ++ p) =
          joinNN (cs ++ [p]) := by
        by_cases h : joinNN cs = []
        · rw [if_pos h]
          have hcs0 : cs = [] := by
            cases cs with
            | nil => rfl
            | cons c cs' =>
              exact absurd h
                (joinNN_ne_nil_of_good _ (by simp) (fun q hq => (hcs q hq).1))
          subst hcs0
          rfl
        · rw [if_neg h]
          have hcsne : cs ≠ [] := by
            intro hc
            subst hc
            exact h rfl
          rw [joinNN_append_single cs hcsne p]
      rw [hstep]
      have hrec := ih (cs ++ [p])
        (by
          intro q hq
          rcases List.mem_append.mp hq with h3 | h4
          · exact hcs q h3
          · obtain rfl := List.mem_singleton.mp h4
            exact hps q (by simp))
        (fun q hq => hps q (by simp [hq]))
      rw [hrec]
      simp
    · rw [if_neg hfit]
      rw [List.map_append, List.flatten_append]
      have hemit :
          (((if joinNN cs = [] then [] else [joinNN cs]).map contentOf).flatten) =
            cs.flatten := by
        by_cases h : joinNN cs = []
        · rw [if_pos h]
          have hcs0 : cs = [] := by
            cases cs with
            | nil => rfl
            | cons c cs' =>
              exact absurd h
                (joinNN_ne_nil_of_good _ (by simp) (fun q hq => (hcs q hq).1))
          subst hcs0
          rfl
        · rw [if_neg h]
          show contentOf (joinNN cs) ++ [] = _
          rw [contentOf_joinNN cs hcs]
          simp
      rw [hemit]
      have hrest0 : ((chunkLoop cc ps' []).map contentOf).flatten = ps'.flatten := by
        have h0 := ih [] (by simp) (fun q hq => hps q (by simp [hq]))
        simpa [joinNN, joinSep] using h0
      by_cases hbig : cc < p.length
      · rw [if_pos hbig, List.map_append, List.flatten_append]
        have hnoNN : ∀ w ∈ hardSplit cc p, noNN w = true :=
          hardSplitF_mem_noNN _ _ _ (hps p (by simp)).2.1
        have hmap : (hardSplit cc p).map contentOf = (hardSplit cc p).map id :=
          List.map_congr_left (fun w hw => contentOf_of_noNN w (hnoNN w hw))
        have hwin : ((hardSplit cc p).map contentOf).flatten = p := by
          rw [hmap, List.map_id]
          exact hardSplitF_flatten p.length p cc hcc le_rfl
        rw [hwin, hrest0]
        simp
      · rw [if_neg hbig]
        have hrest1 : ((chunkLoop cc ps' p).map contentOf).flatten =
            p ++ ps'.flatten := by
          have h1 := ih [p]
            (by
              intro q hq
              obtain rfl := List.mem_singleton.mp hq
              exact hps q (by simp))
            (fun q hq => hps q (by simp [hq]))
          simpa [joinNN, joinSep] using h1
        rw [hrest1]
        simp

/-! ### Lemmas: paragraphs of the input -/

theorem paragraphsOf_good (text : List Char) :
    ∀ p ∈ paragraphsOf text, goodPara p := by
  intro p hp
  unfold paragraphsOf at hp
  rw [List.mem_filter] at hp
  obtain ⟨hmem, hne⟩ := hp
  have hne' : p ≠ [] := by simpa using hne
  obtain ⟨q, hq, rfl⟩ := List.mem_map.mp hmem
  refine ⟨hne', ?_, ?_⟩
  · exact noNN_within (pyStrip_within q) (splitNN_pieces_noNN _ q hq)
  · intro hlast
    have h2 := pyStrip_getLast?_not_space q '\n' hlast
    have h3 : pyIsSpace '\n' = true := by decide
    rw [h3] at h2
    cases h2

theorem chunkText_eq_loop (cc : Nat) (text : List Char)
    (h : pyStrip (replaceCRLF text) ≠ []) :
    chunkText cc text = chunkLoop cc (paragraphsOf text) [] := by
  unfold chunkText
  have htext : text ≠ [] := by
    intro h0
    subst h0
    exact h rfl
  rw [if_neg htext, if_neg h]

theorem mem_dropWhile_of_not {p : Char → Bool} :
    ∀ (l : List Char) (c : Char), c ∈ l → p c = false → c ∈ l.dropWhile p := by
  intro l
  induction l with
  | nil => intro c hc; cases hc
  | cons d rest ih =>
    intro c hc hp
    rw [List.dropWhile_cons]
    by_cases hd : p d = true
    · rw [if_pos hd]
      rcases List.mem_cons.mp hc with h1 | h2
      · subst h1
        rw [hp] at hd
        cases hd
      · exact ih c h2 hp
    · rw [if_neg hd]
      exact hc

theorem pyStrip_ne_nil_of_exists (l : List Char)
    (h : ∃ c ∈ l, pyIsSpace c = false) : pyStrip l ≠ [] := by
  obtain ⟨c, hc, hsp⟩ := h
  have h1 : c ∈ l.dropWhile pyIsSpace := mem_dropWhile_of_not l c hc hsp
  have h2 : c ∈ (l.dropWhile pyIsSpace).reverse := by simpa using h1
  have h3 : c ∈ (l.dropWhile pyIsSpace).reverse.dropWhile pyIsSpace :=
    mem_dropWhile_of_not _ c h2 hsp
  intro h0
  unfold pyStrip at h0
  rw [List.reverse_eq_nil_iff] at h0
  rw [h0] at h3
  cases h3

/-- Strip is empty exactly on whitespace-only strings. -/
theorem pyStrip_eq_nil_iff (l : List Char) :
    pyStrip l = [] ↔ ∀ c ∈ l, pyIsSpace c = true := by
  constructor
  · intro h
    by_contra hex
    push_neg at hex
    obtain ⟨c, hc, hsp⟩ := hex
    exact pyStrip_ne_nil_of_exists l ⟨c, hc, by simpa using hsp⟩ h
  · exact pyStrip_eq_nil_of_allspace l

theorem replaceCRLF_allspace :
    ∀ l : List Char, (∀ c ∈ l, pyIsSpace c = true) →
      ∀ c ∈ replaceCRLF l, pyIsSpace c = true := by
  intro l
  induction l using replaceCRLF.induct with
  | case1 => intro _ c hc; cases hc
  | case2 d =>
    intro h c hc
    rw [show replaceCRLF [d] = [d] from rfl] at hc
    exact h c hc
  | case3 c1 c2 rest h12 ih =>
    intro h c hc
    obtain ⟨rfl, rfl⟩ : c1 = '\r' ∧ c2 = '\n' := h12
    rw [replaceCRLF, if_pos ⟨rfl, rfl⟩] at hc
    rcases List.mem_cons.mp hc with h1 | h2
    · subst h1; decide
    · exact ih (fun d hd => h d (by simp [hd])) c h2
  | case4 c1 c2 rest h12 ih =>
    intro h c hc
    rw [replaceCRLF, if_neg h12] at hc
    rcases List.mem_cons.mp hc with h1 | h2
    · subst h1; exact h c (by simp)
    · exact ih (fun d hd => h d (by simp [hd])) c h2

/-- When the raw input strips to nothing, the chunker yields nothing. -/
theorem chunkText_of_strip_nil (cc : Nat) (text : List Char)
    (h : pyStrip text = []) : chunkText cc text = [] := by
  by_cases h0 : text = []
  · subst h0; rfl
  · have hall := (pyStrip_eq_nil_iff text).mp h
    have hall2 := replaceCRLF_allspace text hall
    have h2 : pyStrip (replaceCRLF text) = [] :=
      pyStrip_eq_nil_of_allspace _ hall2
    unfold chunkText
    rw [if_neg h0, if_pos h2]

theorem mem_joinSep (sep : List Char) :
    ∀ (ps : List (List Char)) (c : Char),
      c ∈ joinSep sep ps → (∃ p ∈ ps, c ∈ p) ∨ c ∈ sep := by
  intro ps
  induction ps with
  | nil => intro c hc; cases hc
  | cons p ps' ih =>
    intro c hc
    cases ps' with
    | nil => exact Or.inl ⟨p, by simp, hc⟩
    | cons q qs =>
      rw [joinSep_cons_cons] at hc
      rcases List.mem_append.mp hc with h1 | h2
      · rcases List.mem_append.mp h1 with h3 | h4
        · exact Or.inl ⟨p, by simp, h3⟩
        · exact Or.inr h4
      · rcases ih c h2 with h3 | h4
        · obtain ⟨r, hr, hcr⟩ := h3
          exact Or.inl ⟨r, by simp [hr], hcr⟩
        · exact Or.inr h4

/-- A non-degenerate trimmed input has at least one paragraph. -/
theorem paragraphsOf_ne_nil (text : List Char)
    (h : pyStrip (replaceCRLF text) ≠ []) : paragraphsOf text ≠ [] := by
  intro h0
  set t := pyStrip (replaceCRLF text) with ht
  have hall : ∀ piece ∈ splitNN t, pyStrip piece = [] := by
    intro piece hpiece
    have h1 := List.filter_eq_nil_iff.mp h0
    by_contra hne
    exact h1 (pyStrip piece)
      (List.mem_map.mpr ⟨piece, hpiece, rfl⟩) (by simpa using hne)
  have hsp : ∀ c ∈ t, pyIsSpace c = true := by
    intro c hc
    rw [← joinNN_splitNN t] at hc
    rcases mem_joinSep nnSep (splitNN t) c hc with h1 | h2
    · obtain ⟨piece, hpiece, hcp⟩ := h1
      exact (pyStrip_eq_nil_iff piece).mp (hall piece hpiece) c hcp
    · rcases List.mem_cons.mp h2 with h3 | h4
      · subst h3; decide
      · rcases List.mem_cons.mp h4 with h5 | h6
        · subst h5; decide
        · cases h6
  obtain ⟨c, hc, hcf⟩ := pyStrip_has_nonspace (replaceCRLF text) h
  rw [hsp c hc] at hcf
  cases hcf

/-! ### Lemmas: lengths for the single-chunk property -/

theorem joinNN_length :
    ∀ ps : List (List Char), ps ≠ [] →
      (joinNN ps).length + 2 = (ps.map (fun p => p.length + 2)).sum := by
  intro ps
  induction ps with
  | nil => intro h; exact absurd rfl h
  | cons p ps' ih =>
    intro _
    cases ps' with
    | nil => simp [joinNN, joinSep]
    | cons q qs =>
      show (joinSep nnSep (p :: q :: qs)).length + 2 = _
      rw [joinSep_cons_cons]
      have h1 := ih (by simp)
      simp only [joinNN] at h1
      simp only [List.map_cons, List.sum_cons, List.length_append] at h1 ⊢
      have h2 : nnSep.length = 2 := rfl
      omega

theorem joinNN_cons_le (p : List Char) (ps : List (List Char)) :
    p.length ≤ (joinNN (p :: ps)).length ∧
      (joinNN ps).length ≤ (joinNN (p :: ps)).length := by
  cases ps with
  | nil => simp [joinNN, joinSep]
  | cons q qs =>
    have h : joinNN (p :: q :: qs) = p ++ nnSep ++ joinSep nnSep (q :: qs) :=
      joinSep_cons_cons nnSep p q qs
    constructor
    · rw [h]; simp
    · show (joinSep nnSep (q :: qs)).length ≤ _
      rw [h]
      simp only [List.length_append]
      omega

/-- Trimming paragraphs and dropping the empty ones never lengthens the
separator join. -/
theorem joinNN_filter_strip_length_le :
    ∀ pieces : List (List Char),
      (joinNN ((pieces.map pyStrip).filter (fun p => p ≠ []))).length ≤
        (joinNN pieces).length := by
  intro pieces
  induction pieces with
  | nil => simp [joinNN, joinSep]
  | cons p ps ih =>
    simp only [List.map_cons, List.filter_cons]
    by_cases h : pyStrip p = []
    · rw [if_neg (by simp [h])]
      exact le_trans ih (joinNN_cons_le p ps).2
    · rw [if_pos (by simpa using h)]
      set S := (ps.map pyStrip).filter (fun q => q ≠ []) with hS
      cases hS2 : S with
      | nil =>
        have h1 : joinNN [pyStrip p] = pyStrip p := rfl
        rw [h1]
        exact le_trans (pyStrip_length_le p) (joinNN_cons_le p ps).1
      | cons s ss =>
        show (joinSep nnSep (pyStrip p :: s :: ss)).length ≤ _
        rw [joinSep_cons_cons]
        have hps : ps ≠ [] := by
          intro h0
          subst h0
          simp [hS] at hS2
        obtain ⟨q, qs, rfl⟩ := List.exists_cons_of_ne_nil hps
        show _ ≤ (joinSep nnSep (p :: q :: qs)).length
        rw [joinSep_cons_cons]
        have h2 : (joinNN (s :: ss)).length ≤ (joinNN (q :: qs)).length := by
          rw [← hS2]
          exact ih
        simp only [List.length_append]
        have h3 := pyStrip_length_le p
        simp only [joinNN] at h2
        omega

/-- When everything fits, the loop emits one chunk joining all
paragraphs. -/
theorem chunkLoop_single (cc : Nat) :
    ∀ (ps : List (List Char)) (current : List Char), current ≠ [] →
      (∀ p ∈ ps, p ≠ []) →
      current.length + (ps.map (fun p => p.length + 2)).sum ≤ cc →
      chunkLoop cc ps current = [joinNN (current :: ps)] := by
  intro ps
  induction ps with
  | nil =>
    intro current hne _ _
    rw [chunkLoop_nil, if_neg hne]
    rfl
  | cons p ps' ih =>
    intro current hne hps hlen
    rw [chunkLoop_cons]
    have hfit : current.length + p.length + 2 ≤ cc := by
      simp only [List.map_cons, List.sum_cons] at hlen
      omega
    rw [if_pos hfit, if_neg hne]
    have happ : (current ++ nnSep ++ p).length = current.length + 2 + p.length := by
      simp [nnSep]
      omega
    have hrec := ih (current ++ nnSep ++ p) (by simp [nnSep])
      (fun q hq => hps q (by simp [hq]))
      (by
        simp only [List.map_cons, List.sum_cons] at hlen
        rw [happ]
        omega)
    rw [hrec]
    have hglue : joinNN ((current ++ nnSep ++ p) :: ps') =
        joinNN (current :: p :: ps') := by
      cases ps' with
      | nil =>
        show current ++ nnSep ++ p = joinSep nnSep (current :: p :: [])
        rw [joinSep_cons_cons]
        rfl
      | cons q qs =>
        show joinSep nnSep ((current ++ nnSep ++ p) :: q :: qs) =
          joinSep nnSep (current :: p :: q :: qs)
        rw [joinSep_cons_cons, joinSep_cons_cons, joinSep_cons_cons]
        simp [List.append_assoc]
    rw [hglue]

/-- A trimmed input that fits the ceiling yields exactly one chunk: the
separator-normalized join of its trimmed paragraphs. -/
theorem chunkText_single_chunk (cc : Nat) (text : List Char)
    (h1 : pyStrip (replaceCRLF text) ≠ [])
    (h2 : (pyStrip (replaceCRLF text)).length ≤ cc) :
    chunkText cc text = [joinNN (paragraphsOf text)] := by
  rw [chunkText_eq_loop cc text h1]
  have hlen : (joinNN (paragraphsOf text)).length ≤ cc := by
    calc (joinNN (paragraphsOf text)).length
        ≤ (joinNN (splitNN (pyStrip (replaceCRLF text)))).length :=
          joinNN_filter_strip_length_le (splitNN (pyStrip (replaceCRLF text)))
      _ = (pyStrip (replaceCRLF text)).length := by rw [joinNN_splitNN]
      _ ≤ cc := h2
  have hgood := paragraphsOf_good text
  obtain ⟨p0, rest, hpar⟩ :=
    List.exists_cons_of_ne_nil (paragraphsOf_ne_nil text h1)
  rw [hpar] at hlen ⊢
  have hp0 : p0 ≠ [] := (hgood p0 (by rw [hpar]; simp)).1
  have hrest_ne : ∀ p ∈ rest, p ≠ [] := fun p hp =>
    (hgood p (by rw [hpar]; simp [hp])).1
  cases rest with
  | nil =>
    have hp0len : p0.length ≤ cc := by
      simpa [joinNN, joinSep] using hlen
    rw [chunkLoop_cons]
    by_cases hfit : ([] : List Char).length + p0.length + 2 ≤ cc
    · rw [if_pos hfit, if_pos rfl, chunkLoop_nil, if_neg hp0]
      rfl
    · rw [if_neg hfit, if_pos rfl, if_neg (not_lt.mpr hp0len),
        chunkLoop_nil, if_neg hp0]
      rfl
  | cons q qs =>
    have hj : joinNN (p0 :: q :: qs) = p0 ++ nnSep ++ joinSep nnSep (q :: qs) :=
      joinSep_cons_cons nnSep p0 q qs
    rw [chunkLoop_cons]
    have hnn2 : nnSep.length = 2 := rfl
    have hfit : ([] : List Char).length + p0.length + 2 ≤ cc := by
      rw [hj] at hlen
      simp only [List.length_append] at hlen
      simp only [List.length_nil]
      omega
    rw [if_pos hfit, if_pos rfl]
    have hsum := joinNN_length (p0 :: q :: qs) (by simp)
    refine chunkLoop_single cc (q :: qs) p0 hp0 hrest_ne ?_
    simp only [List.map_cons, List.sum_cons] at hsum ⊢
    omega

/-- Separator-removed chunk content equals the paragraph concatenation. -/
theorem chunkText_content (cc : Nat) (text : List Char) (hcc : 0 < cc) :
    ((chunkText cc text).map contentOf).flatten = (paragraphsOf text).flatten := by
  by_cases h0 : text = []
  · subst h0
    rfl
  · by_cases h1 : pyStrip (replaceCRLF text) = []
    · unfold chunkText
      rw [if_neg h0, if_pos h1]
      unfold paragraphsOf
      rw [h1]
      rfl
    · rw [chunkText_eq_loop cc text h1]
      have h3 := chunkLoop_content cc hcc (paragraphsOf text) []
        (by simp) (paragraphsOf_good text)
      simpa [joinNN, joinSep] using h3

/-- Every chunk respects the configured size bound. -/
theorem chunkText_mem_length (cc : Nat) (text : List Char) :
    ∀ ch ∈ chunkText cc text, ch.length ≤ cc := by
  unfold chunkText
  by_cases h0 : text = []
  · rw [if_pos h0]
    intro ch hch
    cases hch
  · rw [if_neg h0]
    by_cases h1 : pyStrip (replaceCRLF text) = []
    · rw [if_pos h1]
      intro ch hch
      cases hch
    · rw [if_neg h1]
      exact chunkLoop_mem_length cc _ [] (by simp)

/-! ### Lemmas: the local fallback -/

/-- The local fallback never exceeds 31 whitespace-separated words. -/
theorem localFallback_words_le (ch : List Char) :
    (pyWords (localFallback ch)).length ≤ 31 := by
  have hrw : localFallback ch =
      joinSep [' ']
          ((pyWords ch).take (min 30 (max 10 ((pyWords ch).length / 6)))) ++
        (if 30 < (pyWords ch).length then ("...").data else []) := rfl
  rw [hrw]
  set ws := pyWords ch with hws
  set k := min 30 (max 10 (ws.length / 6)) with hk
  have hgood : ∀ w ∈ ws.take k, w ≠ [] ∧ ∀ c ∈ w, pyIsSpace c = false :=
    fun w hw => pyWords_words_good ch w (List.mem_of_mem_take hw)
  by_cases h30 : 30 < ws.length
  · rw [if_pos h30]
    have htlen : (ws.take k).length = k := by
      rw [List.length_take]
      omega
    have htake_ne : ws.take k ≠ [] := by
      intro h0
      rw [h0] at htlen
      simp at htlen
      omega
    rw [pyWords_joinSep_glue (ws.take k) (("...").data) htake_ne (by decide)
      hgood (by decide)]
    rw [List.length_append, List.length_dropLast, htlen]
    simp
    omega
  · rw [if_neg h30, List.append_nil]
    by_cases hempty : ws.take k = []
    · rw [hempty]
      show (pyWords []).length ≤ 31
      rw [pyWords_nil]
      simp
    · rw [pyWords_joinSep _ hgood, List.length_take]
      omega

/-! ### Lemmas: substring and ratio bridges for the echo detector -/

theorem containsSub_iff (needle hay : List Char) :
    containsSub needle hay = true ↔ needle <:+: hay := by
  unfold containsSub
  rw [List.any_eq_true]
  constructor
  · rintro ⟨t, ht, hpre⟩
    exact List.infix_iff_prefix_suffix.mpr
      ⟨t, List.isPrefixOf_iff_prefix.mp hpre, (List.mem_tails _ _).mp ht⟩
  · intro h
    obtain ⟨t, hp, hs⟩ := List.infix_iff_prefix_suffix.mp h
    exact ⟨t, (List.mem_tails _ _).mpr hs, List.isPrefixOf_iff_prefix.mpr hp⟩

theorem ratio_cast_iff (o i : Nat) :
    9 * i ≤ 10 * o ↔ (9 / 10 : ℚ) * (i : ℚ) ≤ (o : ℚ) := by
  rw [div_mul_eq_mul_div, div_le_iff₀ (by norm_num : (0:ℚ) < 10)]
  constructor
  · intro h
    have h2 : ((9 * i : Nat) : ℚ) ≤ ((10 * o : Nat) : ℚ) := by exact_mod_cast h
    push_cast at h2
    linarith
  · intro h
    have h2 : ((9 * i : Nat) : ℚ) ≤ ((10 * o : Nat) : ℚ) := by
      push_cast
      linarith
    exact_mod_cast h2

/-! ### Lemmas: unfolding `summarize` -/

theorem summarize_single_chunk (call : List Char → GenParams → List Char)
    (temp : ℚ) (cc : Nat) (modelId : List Char) (style : Option (List Char))
    (text c1 : List Char) (hne : pyStrip text ≠ [])
    (hch : chunkText cc text = [c1]) :
    summarize call temp cc modelId style text =
      .ok (pyStrip (processChunk call temp modelId style c1)) := by
  unfold summarize
  rw [if_neg hne, hch]
  rfl

theorem summarize_multi_chunk (call : List Char → GenParams → List Char)
    (temp : ℚ) (cc : Nat) (modelId : List Char) (style : Option (List Char))
    (text c1 c2 : List Char) (cs : List (List Char)) (hne : pyStrip text ≠ [])
    (hch : chunkText cc text = c1 :: c2 :: cs) :
    summarize call temp cc modelId style text =
      (if looksLikeEcho text
          (pyStrip (call
            (synthPrompt ((c1 :: c2 :: cs).map (processChunk call temp modelId style)))
            (GenParams.genP 220 temp)))
        then Except.ok
          (joinSep ['\n'] ((c1 :: c2 :: cs).map (processChunk call temp modelId style)))
        else Except.ok
          (pyStrip (call
            (synthPrompt ((c1 :: c2 :: cs).map (processChunk call temp modelId style)))
            (GenParams.genP 220 temp)))) := by
  unfold summarize
  rw [if_neg hne, hch]
  rfl

/-! ### Lemmas: attempt-loop steps -/

theorem attemptLoopF_503_step (R : Nat) (base : ℚ) (client : Nat → HfResponse)
    (fuel attempt : Nat) (lastExc : Option (List Char))
    (h503 : (client attempt).status = 503) (hlt : attempt < R) :
    attemptLoopF R base client (fuel + 1) lastExc attempt =
      ⟨(attemptLoopF R base client fuel (some loadingMsg) (attempt + 1)).outcome,
       (attemptLoopF R base client fuel (some loadingMsg) (attempt + 1)).requests + 1,
       base * (attempt : ℚ) ::
         (attemptLoopF R base client fuel (some loadingMsg) (attempt + 1)).sleeps⟩ := by
  simp [attemptLoopF, h503, hlt]

theorem attemptLoopF_503_last (R : Nat) (base : ℚ) (client : Nat → HfResponse)
    (fuel attempt : Nat) (lastExc : Option (List Char))
    (h503 : (client attempt).status = 503) (hge : ¬ attempt < R) :
    attemptLoopF R base client (fuel + 1) lastExc attempt =
      ⟨.done (.error (.transientExhausted loadingMsg)), 1, []⟩ := by
  simp [attemptLoopF, h503, hge]

theorem attemptLoopF_success (R : Nat) (base : ℚ) (client : Nat → HfResponse)
    (fuel attempt : Nat) (lastExc : Option (List Char))
    (h200 : (client attempt).status = 200) :
    attemptLoopF R base client (fuel + 1) lastExc attempt =
      ⟨.done (.ok (extractText (client attempt))), 1, []⟩ := by
  simp [attemptLoopF, h200]

/-- The whole attempt range failing with the retryable status yields the
terminal transient error, one request per remaining attempt, and linearly
growing backoff sleeps. -/
theorem attemptLoopF_all503 (R : Nat) (base : ℚ) (client : Nat → HfResponse)
    (hall : ∀ a, 1 ≤ a → a ≤ R → (client a).status = 503) :
    ∀ (fuel attempt : Nat) (lastExc : Option (List Char)),
      1 ≤ attempt → attempt + fuel = R + 1 → 1 ≤ fuel →
      attemptLoopF R base client fuel lastExc attempt =
        ⟨.done (.error (.transientExhausted loadingMsg)), fuel,
          (List.range' attempt (fuel - 1)).map (fun i => base * (i : ℚ))⟩ := by
  intro fuel
  induction fuel with
  | zero =>
    intro attempt lastExc _ _ h
    omega
  | succ fuel ih =>
    intro attempt lastExc h1 hsum _
    have h503 : (client attempt).status = 503 := hall attempt h1 (by omega)
    by_cases hlt : attempt < R
    · have hfuel1 : 1 ≤ fuel := by omega
      rw [attemptLoopF_503_step R base client fuel attempt lastExc h503 hlt,
        ih (attempt + 1) (some loadingMsg) (by omega) (by omega) hfuel1]
      obtain ⟨g, rfl⟩ : ∃ g, fuel = g + 1 := ⟨fuel - 1, by omega⟩
      show LoopOut.mk _ (g + 1 + 1) _ = _
      simp only [Nat.add_sub_cancel]
      rw [List.range'_succ]
      rfl
    · have hatt : attempt = R := by omega
      have hf0 : fuel = 0 := by omega
      subst hf0
      rw [attemptLoopF_503_last R base client 0 attempt lastExc h503 hlt]
      simp [List.range']

/-! ### Claims -/

/-- C6: `_looks_like_echo(input, output)` returns true exactly when the
raw output is empty, or the whitespace-collapsed output equals the
collapsed input, or one collapsed string is a substring of the other, or
the collapsed output length is at least 0.9 times the collapsed input
length while the collapsed input length exceeds 40 characters; in
particular `isEcho(x, x)` holds for every non-empty `x` and
`isEcho(x, "")` holds for every `x`. -/
theorem claim_C6 (inputText outputText : List Char) :
    (looksLikeEcho inputText outputText = true ↔
      (outputText = [] ∨
        collapseWS outputText = collapseWS inputText ∨
        collapseWS inputText <:+: collapseWS outputText ∨
        collapseWS outputText <:+: collapseWS inputText ∨
        ((9 / 10 : ℚ) * ((collapseWS inputText).length : ℚ) ≤
            ((collapseWS outputText).length : ℚ) ∧
          40 < (collapseWS inputText).length))) ∧
    (inputText ≠ [] → looksLikeEcho inputText inputText = true) ∧
    looksLikeEcho inputText [] = true := by
  refine ⟨?_, ?_, ?_⟩
  · by_cases hout : outputText = []
    · constructor
      · intro _
        exact Or.inl hout
      · intro _
        unfold looksLikeEcho
        rw [if_pos hout]
    · unfold looksLikeEcho
      rw [if_neg hout]
      by_cases h1 : collapseWS outputText = collapseWS inputText ∨
          containsSub (collapseWS inputText) (collapseWS outputText) = true ∨
          containsSub (collapseWS outputText) (collapseWS inputText) = true
      · rw [if_pos h1]
        constructor
        · intro _
          rcases h1 with h2 | h2 | h2
          · exact Or.inr (Or.inl h2)
          · exact Or.inr (Or.inr (Or.inl ((containsSub_iff _ _).mp h2)))
          · exact Or.inr (Or.inr (Or.inr (Or.inl ((containsSub_iff _ _).mp h2))))
        · intro _
          rfl
      · rw [if_neg h1]
        by_cases h2 : 9 * (collapseWS inputText).length ≤
            10 * (collapseWS outputText).length ∧
            40 < (collapseWS inputText).length
        · rw [if_pos h2]
          constructor
          · intro _
            exact Or.inr (Or.inr (Or.inr (Or.inr
              ⟨(ratio_cast_iff _ _).mp h2.1, h2.2⟩)))
          · intro _
            rfl
        · rw [if_neg h2]
          constructor
          · intro hf
            cases hf
          · intro hdisj
            exfalso
            rcases hdisj with h3 | h3 | h3 | h3 | h3
            · exact hout h3
            · exact h1 (Or.inl h3)
            · exact h1 (Or.inr (Or.inl ((containsSub_iff _ _).mpr h3)))
            · exact h1 (Or.inr (Or.inr ((containsSub_iff _ _).mpr h3)))
            · exact h2 ⟨(ratio_cast_iff _ _).mpr h3.1, h3.2⟩
  · intro hx
    unfold looksLikeEcho
    rw [if_neg hx, if_pos (Or.inl rfl)]
  · unfold looksLikeEcho
    rw [if_pos rfl]

/-- Witness for C6 at concrete inputs. -/
theorem claim_C6_witness :
    looksLikeEcho ("abc").data ("abc").data = true ∧
      looksLikeEcho ("xyz").data [] = true :=
  ⟨(claim_C6 (("abc").data) (("abc").data)).2.1 (by decide),
   (claim_C6 (("xyz").data) (("xyz").data)).2.2⟩

/-- C9: a non-empty, whitespace-only model output is always flagged as an
echo: whitespace collapsing reduces it to the empty string, which is a
substring of every collapsed input. -/
theorem claim_C9 (inputText outputText : List Char) (hne : outputText ≠ [])
    (hsp : ∀ c ∈ outputText, pyIsSpace c = true) :
    collapseWS outputText = [] ∧ looksLikeEcho inputText outputText = true := by
  have hc : collapseWS outputText = [] := by
    unfold collapseWS
    rw [pyWords_allspace outputText hsp]
    rfl
  refine ⟨hc, ?_⟩
  unfold looksLikeEcho
  rw [if_neg hne, if_pos ?_]
  exact Or.inr (Or.inr (by
    rw [hc]
    exact (containsSub_iff _ _).mpr List.nil_infix))

/-- Witness for C9 at a concrete whitespace-only output. -/
theorem claim_C9_witness :
    collapseWS ((" \t ").data) = [] ∧
      looksLikeEcho (("some input").data) ((" \t ").data) = true :=
  claim_C9 (("some input").data) ((" \t ").data) (by decide) (by decide)

/-- C10: style matching in `_prompt_and_params` is case-insensitive;
`None` and the empty string map to the brief behavior (not the generic
unknown-style branch); only a non-empty style whose lowercasing is outside
brief/detailed/bullets reaches the generic branch. -/
theorem claim_C10 (temp : ℚ) (modelId text s t : List Char) :
    (promptAndParams temp modelId text none =
      promptAndParams temp modelId text (some (("brief").data))) ∧
    (promptAndParams temp modelId text (some []) =
      promptAndParams temp modelId text (some (("brief").data))) ∧
    (s ≠ [] → t ≠ [] → pyLower s = pyLower t →
      promptAndParams temp modelId text (some s) =
        promptAndParams temp modelId text (some t)) ∧
    (s ≠ [] →
      pyLower s ∉ [("brief").data, ("detailed").data, ("bullets").data] →
      promptAndParams temp modelId text (some s) =
        (if isBart modelId then (text, GenParams.bartP 60 10 temp)
         else (instrPrompt genericInstr text, GenParams.genP 200 temp))) := by
  refine ⟨rfl, rfl, ?_, ?_⟩
  · intro hs ht hlow
    unfold promptAndParams
    have h1 : styleOrBrief (some s) = s := by
      rw [styleOrBrief, if_neg hs]
    have h2 : styleOrBrief (some t) = t := by
      rw [styleOrBrief, if_neg ht]
    rw [h1, h2, hlow]
  · intro hs hnot
    unfold promptAndParams
    have h1 : styleOrBrief (some s) = s := by
      rw [styleOrBrief, if_neg hs]
    rw [h1]
    have hb : pyLower s ≠ ("brief").data := fun h => hnot (by simp [h])
    have hd : pyLower s ≠ ("detailed").data := fun h => hnot (by simp [h])
    have hu : pyLower s ≠ ("bullets").data := fun h => hnot (by simp [h])
    unfold promptAndParamsCore
    by_cases hbart : isBart modelId
    · rw [if_pos hbart, if_pos hbart, if_neg hb, if_neg hd, if_neg hu]
    · rw [if_neg hbart, if_neg hbart, if_neg hb, if_neg hd, if_neg hu]

/-- C1 (amended): for every chunk on which both the first inference
output and the repair-variant output are flagged as echoes, the chunk's
summary is the deterministic local fallback: the first
`min(30, max(10, wordCount // 6))` words of the chunk, with an ellipsis
appended exactly when the chunk has more than 30 words; the fallback never
exceeds 31 words, and a single-chunk `summarize` returns it trimmed. -/
theorem claim_C1 (call : List Char → GenParams → List Char) (temp : ℚ)
    (cc : Nat) (modelId : List Char) (style : Option (List Char))
    (text ch : List Char)
    (h1 : looksLikeEcho ch (firstOut call temp modelId style ch) = true)
    (h2 : looksLikeEcho ch (repairOut call temp modelId style ch) = true) :
    processChunk call temp modelId style ch = localFallback ch ∧
    localFallback ch =
      joinSep [' ']
          ((pyWords ch).take (min 30 (max 10 ((pyWords ch).length / 6)))) ++
        (if 30 < (pyWords ch).length then ("...").data else []) ∧
    (pyWords (localFallback ch)).length ≤ 31 ∧
    (chunkText cc text = [ch] → pyStrip text ≠ [] →
      summarize call temp cc modelId style text =
        .ok (pyStrip (localFallback ch))) := by
  have hpc : processChunk call temp modelId style ch = localFallback ch := by
    unfold processChunk
    rw [if_pos h1, if_neg (by rw [h2]; simp)]
  refine ⟨hpc, rfl, localFallback_words_le ch, ?_⟩
  intro hch hne
  rw [summarize_single_chunk call temp cc modelId style text ch hne hch, hpc]

/-- Counterexample for C1 as frozen: on a 20-word chunk with a mocked
client echoing on both calls, the fallback keeps 10 of 20 words —
truncation occurred — yet no ellipsis is appended, because the ellipsis
condition in the code is `wordCount > 30`, not "truncated". -/
theorem claim_C1_counterexample :
    (pyWords (("w1 w2 w3 w4 w5 w6 w7 w8 w9 w10 w11 w12 w13 w14 w15 w16 w17 w18 w19 w20").data)).length = 20 ∧
    min 30 (max 10 ((pyWords (("w1 w2 w3 w4 w5 w6 w7 w8 w9 w10 w11 w12 w13 w14 w15 w16 w17 w18 w19 w20").data)).length / 6)) = 10 ∧
    looksLikeEcho (("w1 w2 w3 w4 w5 w6 w7 w8 w9 w10 w11 w12 w13 w14 w15 w16 w17 w18 w19 w20").data)
      (firstOut (fun _ _ => (("w1 w2 w3 w4 w5 w6 w7 w8 w9 w10 w11 w12 w13 w14 w15 w16 w17 w18 w19 w20").data))
        (1/10) (("facebook/bart-large-cnn").data) none
        (("w1 w2 w3 w4 w5 w6 w7 w8 w9 w10 w11 w12 w13 w14 w15 w16 w17 w18 w19 w20").data)) = true ∧
    looksLikeEcho (("w1 w2 w3 w4 w5 w6 w7 w8 w9 w10 w11 w12 w13 w14 w15 w16 w17 w18 w19 w20").data)
      (repairOut (fun _ _ => (("w1 w2 w3 w4 w5 w6 w7 w8 w9 w10 w11 w12 w13 w14 w15 w16 w17 w18 w19 w20").data))
        (1/10) (("facebook/bart-large-cnn").data) none
        (("w1 w2 w3 w4 w5 w6 w7 w8 w9 w10 w11 w12 w13 w14 w15 w16 w17 w18 w19 w20").data)) = true ∧
    processChunk (fun _ _ => (("w1 w2 w3 w4 w5 w6 w7 w8 w9 w10 w11 w12 w13 w14 w15 w16 w17 w18 w19 w20").data))
        (1/10) (("facebook/bart-large-cnn").data) none
        (("w1 w2 w3 w4 w5 w6 w7 w8 w9 w10 w11 w12 w13 w14 w15 w16 w17 w18 w19 w20").data) =
      (("w1 w2 w3 w4 w5 w6 w7 w8 w9 w10").data) ∧
    processChunk (fun _ _ => (("w1 w2 w3 w4 w5 w6 w7 w8 w9 w10 w11 w12 w13 w14 w15 w16 w17 w18 w19 w20").data))
        (1/10) (("facebook/bart-large-cnn").data) none
        (("w1 w2 w3 w4 w5 w6 w7 w8 w9 w10 w11 w12 w13 w14 w15 w16 w17 w18 w19 w20").data) ≠
      (("w1 w2 w3 w4 w5 w6 w7 w8 w9 w10").data) ++ ("...").data := by
  refine ⟨by decide, by decide, by decide, by decide, by decide, by decide⟩

/-- Witness for C1 at the same concrete echoing client. -/
theorem claim_C1_witness :
    processChunk (fun _ _ => (("w1 w2 w3 w4 w5 w6 w7 w8 w9 w10 w11 w12 w13 w14 w15 w16 w17 w18 w19 w20").data))
        (1/10) (("facebook/bart-large-cnn").data) none
        (("w1 w2 w3 w4 w5 w6 w7 w8 w9 w10 w11 w12 w13 w14 w15 w16 w17 w18 w19 w20").data) =
      localFallback (("w1 w2 w3 w4 w5 w6 w7 w8 w9 w10 w11 w12 w13 w14 w15 w16 w17 w18 w19 w20").data) ∧
    (pyWords (localFallback (("w1 w2 w3 w4 w5 w6 w7 w8 w9 w10 w11 w12 w13 w14 w15 w16 w17 w18 w19 w20").data))).length ≤ 31 :=
  ⟨(claim_C1 (fun _ _ => (("w1 w2 w3 w4 w5 w6 w7 w8 w9 w10 w11 w12 w13 w14 w15 w16 w17 w18 w19 w20").data))
      (1/10) 3000 (("facebook/bart-large-cnn").data) none
      (("w1 w2 w3 w4 w5 w6 w7 w8 w9 w10 w11 w12 w13 w14 w15 w16 w17 w18 w19 w20").data)
      (("w1 w2 w3 w4 w5 w6 w7 w8 w9 w10 w11 w12 w13 w14 w15 w16 w17 w18 w19 w20").data)
      (by decide) (by decide)).1,
   (claim_C1 (fun _ _ => (("w1 w2 w3 w4 w5 w6 w7 w8 w9 w10 w11 w12 w13 w14 w15 w16 w17 w18 w19 w20").data))
      (1/10) 3000 (("facebook/bart-large-cnn").data) none
      (("w1 w2 w3 w4 w5 w6 w7 w8 w9 w10 w11 w12 w13 w14 w15 w16 w17 w18 w19 w20").data)
      (("w1 w2 w3 w4 w5 w6 w7 w8 w9 w10 w11 w12 w13 w14 w15 w16 w17 w18 w19 w20").data)
      (by decide) (by decide)).2.2.1⟩

/-- C2 (amended): for every non-empty, non-whitespace-only input whose
normalized trimmed length fits the chunk size ceiling, `_chunk_text`
returns exactly one chunk, equal to the trimmed input with its paragraph
structure normalized: paragraphs trimmed, empty paragraphs dropped, and
blank-line runs collapsed to one `"\n\n"` separator. -/
theorem claim_C2 (cc : Nat) (text : List Char)
    (h1 : pyStrip (replaceCRLF text) ≠ [])
    (h2 : (pyStrip (replaceCRLF text)).length ≤ cc) :
    chunkText cc text = [joinNN (paragraphsOf text)] :=
  chunkText_single_chunk cc text h1 h2

/-- Counterexample for C2 as frozen: the input `"a\n\n\n\nb"` is
non-empty, non-whitespace-only and far below the ceiling, yet the single
returned chunk `"a\n\nb"` differs from the trimmed input. -/
theorem claim_C2_counterexample :
    pyStrip (replaceCRLF (("a\n\n\n\nb").data)) = ("a\n\n\n\nb").data ∧
    ("a\n\n\n\nb").data ≠ [] ∧
    (pyStrip (replaceCRLF (("a\n\n\n\nb").data))).length ≤ 3000 ∧
    chunkText 3000 (("a\n\n\n\nb").data) = [("a\n\nb").data] ∧
    ("a\n\nb").data ≠ ("a\n\n\n\nb").data := by
  decide

/-- Witness for C2 at a concrete input. -/
theorem claim_C2_witness :
    chunkText 3000 (("  hello\n\nworld  ").data) =
      [joinNN (paragraphsOf (("  hello\n\nworld  ").data))] :=
  claim_C2 3000 (("  hello\n\nworld  ").data) (by decide) (by decide)

/-- C3: for every input text, the concatenation of the chunks with the
re-inserted `"\n\n"` separators removed equals the concatenation of the
non-empty trimmed paragraphs of the input, in original order — every
paragraph exactly once. -/
theorem claim_C3 (cc : Nat) (text : List Char) (hcc : 0 < cc) :
    ((chunkText cc text).map contentOf).flatten = (paragraphsOf text).flatten :=
  chunkText_content cc text hcc

/-- Witness for C3 at a concrete input with re-chunked paragraphs. -/
theorem claim_C3_witness :
    ((chunkText 8 (("aaa\n\nbbb\n\nccc ddd eee").data)).map contentOf).flatten =
      (paragraphsOf (("aaa\n\nbbb\n\nccc ddd eee").data)).flatten :=
  claim_C3 8 (("aaa\n\nbbb\n\nccc ddd eee").data) (by decide)

/-- C8 (amended): every chunk returned by `_chunk_text` has length at most
the configured maximum; a paragraph longer than the maximum is hard-split
into consecutive windows of exactly `maxChars` characters except for a
possibly shorter final window, the windows concatenating back to the
paragraph — so even those windows respect the bound. -/
theorem claim_C8 (cc : Nat) (text p : List Char) (hcc : 0 < cc) :
    (∀ ch ∈ chunkText cc text, ch.length ≤ cc) ∧
    (∀ w ∈ (hardSplit cc p).dropLast, w.length = cc) ∧
    (∀ w ∈ hardSplit cc p, w.length ≤ cc) ∧
    (hardSplit cc p).flatten = p :=
  ⟨chunkText_mem_length cc text,
   hardSplitF_dropLast_length p.length p cc hcc le_rfl,
   hardSplitF_mem_length p.length p cc,
   hardSplitF_flatten p.length p cc hcc le_rfl⟩

/-- Counterexample for C8 as frozen: with `maxChars = 3`, the oversized
single paragraph `"abcd"` is split into `["abc", "d"]`; the final window
`"d"` does not have exactly `maxChars` characters. -/
theorem claim_C8_counterexample :
    3 < (("abcd").data).length ∧
    chunkText 3 (("abcd").data) = [("abc").data, ("d").data] ∧
    ("d").data ∈ chunkText 3 (("abcd").data) ∧
    (("d").data).length ≠ 3 := by
  decide

/-- Witness for C8 at a concrete input and paragraph. -/
theorem claim_C8_witness :
    (∀ ch ∈ chunkText 3 (("ab\n\ncdef").data), ch.length ≤ 3) ∧
    (∀ w ∈ (hardSplit 3 (("cdef").data)).dropLast, w.length = 3) ∧
    (∀ w ∈ hardSplit 3 (("cdef").data), w.length ≤ 3) ∧
    (hardSplit 3 (("cdef").data)).flatten = ("cdef").data :=
  claim_C8 3 (("ab\n\ncdef").data) (("cdef").data) (by decide)

/-- C4: with the retryable "model warming" status (503) on the first two
attempts and success on the third, `_call_hf` issues exactly 3 requests,
sleeps `base * attempt` between consecutive attempts (linear backoff), and
returns the extracted successful result; when every configured attempt
fails with 503, it raises one terminal error wrapping the last transient
cause after `R` requests and linearly growing sleeps. -/
theorem claim_C4 (R : Nat) (base : ℚ) (client : Nat → HfResponse) :
    ((3 ≤ R ∧ (client 1).status = 503 ∧ (client 2).status = 503 ∧
        (client 3).status = 200) →
      callHf R base client =
        ⟨.ok (extractText (client 3)), 3,
          [base * ((1 : Nat) : ℚ), base * ((2 : Nat) : ℚ)]⟩) ∧
    ((1 ≤ R ∧ ∀ a, 1 ≤ a → a ≤ R → (client a).status = 503) →
      callHf R base client =
        ⟨.error (.transientExhausted loadingMsg), R,
          (List.range' 1 (R - 1)).map (fun i => base * (i : ℚ))⟩) := by
  constructor
  · rintro ⟨hR, h1, h2, h3⟩
    obtain ⟨f, rfl⟩ : ∃ f, R = f + 3 := ⟨R - 3, by omega⟩
    unfold callHf
    rw [show f + 3 = (f + 2) + 1 from rfl,
      attemptLoopF_503_step _ _ _ _ 1 none h1 (by omega),
      show f + 2 = (f + 1) + 1 from rfl,
      attemptLoopF_503_step _ _ _ _ 2 _ h2 (by omega),
      attemptLoopF_success _ _ _ f 3 _ h3]
  · rintro ⟨hR, hall⟩
    unfold callHf
    rw [attemptLoopF_all503 R base client hall R 1 none le_rfl (by omega) hR]

/-- Witness for C4: concrete mocked clients with `R = 3`,
`base = 3 / 2`. -/
theorem claim_C4_witness :
    callHf 3 (3 / 2) (fun a =>
        if a ≤ 2 then ⟨503, ("warming").data, none⟩
        else ⟨200, ("resp").data,
          some (.jarr [.jobj [(("summary_text").data, .jstr (("ok").data))]])⟩) =
      ⟨.ok (extractText ⟨200, ("resp").data,
          some (.jarr [.jobj [(("summary_text").data, .jstr (("ok").data))]])⟩),
        3, [(3 / 2 : ℚ) * ((1 : Nat) : ℚ), (3 / 2 : ℚ) * ((2 : Nat) : ℚ)]⟩ ∧
    callHf 2 (3 / 2) (fun _ => ⟨503, ("warming").data, none⟩) =
      ⟨.error (.transientExhausted loadingMsg), 2,
        (List.range' 1 (2 - 1)).map (fun i => (3 / 2 : ℚ) * (i : ℚ))⟩ :=
  ⟨(claim_C4 3 (3 / 2) _).1 ⟨by omega, by decide, by decide, by decide⟩,
   (claim_C4 2 (3 / 2) _).2 ⟨by omega, by
     intro a h1 h2
     rfl⟩⟩

/-- C5: an auth-failure status (401 or 403) on the first attempt makes
`_call_hf` issue exactly one request, perform no backoff sleep, and raise
the terminal error carrying the status and the 500-character-truncated
response body. -/
theorem claim_C5 (R : Nat) (base : ℚ) (client : Nat → HfResponse)
    (hR : 1 ≤ R)
    (hauth : (client 1).status = 401 ∨ (client 1).status = 403) :
    callHf R base client =
      ⟨.error (.auth (client 1).status ((client 1).body.take 500)), 1, []⟩ := by
  obtain ⟨f, rfl⟩ : ∃ f, R = f + 1 := ⟨R - 1, by omega⟩
  unfold callHf
  rcases hauth with h | h <;> simp [attemptLoopF, h]

/-- Witness for C5 at a concrete mocked client. -/
theorem claim_C5_witness :
    callHf 3 (3 / 2) (fun _ => ⟨401, ("denied").data, none⟩) =
      ⟨.error (.auth 401 ((("denied").data).take 500)), 1, []⟩ := by
  have h := claim_C5 3 (3 / 2) (fun _ => ⟨401, ("denied").data, none⟩)
    (by omega) (Or.inl rfl)
  exact h

/-- C7: on a multi-chunk input, when the synthesis output is flagged as an
echo of the entire original input, `summarize` returns the partial
summaries joined by single newlines — each partial intact, in chunk
order; otherwise it returns the trimmed synthesized text. -/
theorem claim_C7 (call : List Char → GenParams → List Char) (temp : ℚ)
    (cc : Nat) (modelId : List Char) (style : Option (List Char))
    (text c1 c2 : List Char) (cs : List (List Char))
    (hch : chunkText cc text = c1 :: c2 :: cs) :
    (looksLikeEcho text
        (pyStrip (call
          (synthPrompt ((c1 :: c2 :: cs).map (processChunk call temp modelId style)))
          (GenParams.genP 220 temp))) = true →
      summarize call temp cc modelId style text =
        .ok (joinSep ['\n']
          ((c1 :: c2 :: cs).map (processChunk call temp modelId style)))) ∧
    (looksLikeEcho text
        (pyStrip (call
          (synthPrompt ((c1 :: c2 :: cs).map (processChunk call temp modelId style)))
          (GenParams.genP 220 temp))) = false →
      summarize call temp cc modelId style text =
        .ok (pyStrip (call
          (synthPrompt ((c1 :: c2 :: cs).map (processChunk call temp modelId style)))
          (GenParams.genP 220 temp)))) := by
  have hne : pyStrip text ≠ [] := by
    intro h0
    rw [chunkText_of_strip_nil cc text h0] at hch
    cases hch
  rw [summarize_multi_chunk call temp cc modelId style text c1 c2 cs hne hch]
  constructor
  · intro hecho
    rw [if_pos hecho]
  · intro hecho
    rw [if_neg (by rw [hecho]; simp)]

/-- Witness for C7: two chunks, one mocked client whose synthesis call
echoes the whole input and one whose synthesis output is fresh. -/
theorem claim_C7_witness :
    summarize (fun _ _ => ("aa\n\nbb").data) (1/10) 3
        (("facebook/bart-large-cnn").data) none
        (("aa\n\nbb").data) = .ok (("aa\nbb").data) ∧
    summarize (fun _ _ => ("fresh words").data) (1/10) 3
        (("facebook/bart-large-cnn").data) none
        (("aa\n\nbb").data) = .ok (("fresh words").data) := by
  constructor
  · have h := (claim_C7 (fun _ _ => ("aa\n\nbb").data) (1/10) 3
      (("facebook/bart-large-cnn").data) none (("aa\n\nbb").data)
      (("aa").data) (("bb").data) [] (by decide)).1 (by decide)
    rw [h]
    decide
  · have h := (claim_C7 (fun _ _ => ("fresh words").data) (1/10) 3
      (("facebook/bart-large-cnn").data) none (("aa\n\nbb").data)
      (("aa").data) (("bb").data) [] (by decide)).2 (by decide)
    rw [h]
    decide

/-- Witness for C10 at concrete styles. -/
theorem claim_C10_witness :
    (promptAndParams (1/10) (("facebook/bart-large-cnn").data)
        (("some document").data) (some (("BRIEF").data)) =
      promptAndParams (1/10) (("facebook/bart-large-cnn").data)
        (("some document").data) (some (("brief").data))) ∧
    (promptAndParams (1/10) (("facebook/bart-large-cnn").data)
        (("some document").data) (some (("fancy").data)) =
      (if isBart (("facebook/bart-large-cnn").data) then
        ((("some document").data), GenParams.bartP 60 10 (1/10))
       else (instrPrompt genericInstr (("some document").data),
         GenParams.genP 200 (1/10)))) :=
  ⟨(claim_C10 (1/10) (("facebook/bart-large-cnn").data) (("some document").data)
      (("BRIEF").data) (("brief").data)).2.2.1 (by decide) (by decide) (by decide),
   (claim_C10 (1/10) (("facebook/bart-large-cnn").data) (("some document").data)
      (("fancy").data) (("fancy").data)).2.2.2 (by decide) (by decide)⟩

end DocSum
